import Mathlib

/-
Formal model of the `GraphMap` class of `graph_map.py` (sage-train-track):
maps between graphs-with-inverses sending vertices to vertices and edges to
edge paths, with the edge-map invariant `image(inv(a)) = reverse(image(a))`,
the tightening fixed point, Stallings folding, and the homotopy-inverse
orchestration.

The underlying graph-with-inverses collaborator (path reduction, path
reversal, common-prefix computation, turn enumeration, the fold primitive,
and the subdivision primitives) and the free-group-automorphism collaborator
are external to `graph_map.py`; where the model needs them they are modelled
from the spec, and each such definition says so in its doc comment.

Python failure is modelled with `Option`/`Except`: a `none` result stands for
an uncaught Python exception (KeyError, IndexError, unbounded loop).
-/

namespace TrainTrack

/-- A letter of an alphabet-with-inverses: positive letters `pos i` and their
formal inverses `neg i`.  Modelled from the spec (the `AlphabetWithInverses`
collaborator is not part of `graph_map.py`): the involution swaps the two
constructors, so `bar (bar a) = a` and `bar a ≠ a`. -/
inductive Letter where
  | pos : Nat → Letter
  | neg : Nat → Letter
  deriving DecidableEq

/-- The involution `inverse_letter` of the alphabet. -/
def Letter.bar : Letter → Letter
  | .pos i => .neg i
  | .neg i => .pos i

/-- The positive index underlying a letter (the edge pair it belongs to). -/
def Letter.index : Letter → Nat
  | .pos i => i
  | .neg i => i

/-- An edge path (word): a finite sequence of letters. -/
abbrev Path := List Letter

/-- `reverse_path`: modelled from the spec, `[a1,...,an] ↦ [inv(an),...,inv(a1)]`. -/
def reversePath (w : Path) : Path := (w.map Letter.bar).reverse

/-- One step of free reduction: prepend a letter to an already reduced word,
cancelling against the head when it is the inverse. -/
def redCons (a : Letter) : Path → Path
  | [] => [a]
  | b :: w => if b = a.bar then w else a :: b :: w

/-- `reduce_path`: modelled from the spec, free reduction (remove every
adjacent pair `(a, inv(a))`); idempotent on reduced words. -/
def reducePath (w : Path) : Path := w.foldr redCons []

/-- Whether a word is reduced: no adjacent pair `(a, inv(a))`. -/
def reducedB : Path → Bool
  | [] => true
  | [_] => true
  | a :: b :: w => decide (b ≠ a.bar) && reducedB (b :: w)

/-- `common_prefix_length`: modelled from the spec, the length of the longest
common initial segment of two words. -/
def commonPfxLen : Path → Path → Nat
  | a :: u, b :: v => if a = b then commonPfxLen u v + 1 else 0
  | _, _ => 0

/-- Pointwise update of a `Nat`-indexed map (a Python dict write). -/
def upd {β : Type} (f : Nat → β) (k : Nat) (x : β) : Nat → β :=
  fun v => if v = k then x else f v

/-- Pointwise update of a `Letter`-indexed map (a Python dict write). -/
def updL {β : Type} (f : Letter → β) (k : Letter) (x : β) : Letter → β :=
  fun b => if b = k then x else f b

/-- A graph-with-inverses, modelled from the spec: a list of vertices, a list
of (indices of) positive letters, and the incidence maps of the positive
letters; the inverse letter has the swapped incidence.  `init`/`term` are
total functions on `Nat`; only indices in `pos` are meaningful. -/
structure Graph where
  vertices : List Nat
  pos : List Nat
  init : Nat → Nat
  term : Nat → Nat

/-- All letters of the graph's alphabet: positive letters then inverses. -/
def Graph.allLetters (G : Graph) : List Letter :=
  G.pos.map Letter.pos ++ G.pos.map Letter.neg

/-- `initial_vertex` of an arbitrary letter. -/
def Graph.initialVertex (G : Graph) : Letter → Nat
  | .pos i => G.init i
  | .neg i => G.term i

/-- `terminal_vertex` of an arbitrary letter. -/
def Graph.terminalVertex (G : Graph) : Letter → Nat
  | .pos i => G.term i
  | .neg i => G.init i

/-- `set_terminal_vertex(e, v)` primitive of the graph collaborator,
modelled from the spec: move the head of `e` to `v`. -/
def Graph.setTerminalVertex (G : Graph) (e : Letter) (v : Nat) : Graph :=
  match e with
  | .pos i => { G with term := upd G.term i v }
  | .neg i => { G with init := upd G.init i v }

/-- `add_edge(vi, vt, [f, inv f])` primitive, modelled from the spec: register
a new positive letter `i` running from `vi` to `vt`. -/
def Graph.addEdge (G : Graph) (vi vt : Nat) (i : Nat) : Graph :=
  { G with pos := G.pos ++ [i], init := upd G.init i vi, term := upd G.term i vt }

/-- Largest entry of a list of identifiers (0 when empty), used to generate
fresh names. -/
def maxList (l : List Nat) : Nat := l.foldr max 0

/-- `add_new_letters(n)` of the alphabet collaborator, modelled from the spec:
`n` fresh positive-letter indices. -/
def Graph.freshIds (G : Graph) (n : Nat) : List Nat :=
  (List.range n).map (fun k => maxList G.pos + 1 + k)

/-- `new_vertices(n)` of the graph collaborator, modelled from the spec:
`n` fresh vertex identifiers. -/
def Graph.freshVertices (G : Graph) (n : Nat) : List Nat :=
  (List.range n).map (fun k => maxList G.vertices + 1 + k)

/-- All ordered pairs `(a,b)` with `a` strictly before `b` in the list:
the unordered pairs of distinct elements. -/
def pairsAux : List Letter → List (Letter × Letter)
  | [] => []
  | a :: rest => rest.map (fun b => (a, b)) ++ pairsAux rest

/-- `turns()` of the graph collaborator, modelled from the spec: all unordered
pairs of distinct outgoing letters sharing their initial vertex. -/
def Graph.turns (G : Graph) : List (Letter × Letter) :=
  (pairsAux G.allLetters).filter
    (fun t => decide (G.initialVertex t.1 = G.initialVertex t.2))

/-- `fold(edge_list, [])` primitive of the graph collaborator, modelled from
the spec: identify all edges of `es` into `es.head`, merging their terminal
vertices and removing the now-redundant edge pairs from the graph. -/
def Graph.fold (G : Graph) (es : List Letter) : Graph :=
  match es with
  | [] => G
  | e0 :: rest =>
    let t0 := G.terminalVertex e0
    let merged := rest.map G.terminalVertex
    let removed := rest.map Letter.index
    let rn : Nat → Nat := fun v => if v ∈ merged then t0 else v
    { vertices := G.vertices.filter (fun v => decide (v = t0 ∨ v ∉ merged)),
      pos := G.pos.filter (fun i => decide (i ∉ removed)),
      init := fun i => rn (G.init i),
      term := fun i => rn (G.term i) }

/-- The dict `m` built by `GraphMap.set_edge_map` (lines 93-99): iterate over
the letters of the given edge-map specification; for each key `a` store the
reduced image at `a` and its reverse at `inverse_letter(a)`.  A letter no
entry speaks about is left unmapped (`none`): the Python code performs no
totality check. -/
def setEdgeMapFn (spec : List (Letter × Path)) : Letter → Option Path :=
  spec.foldl
    (fun m q =>
      let r := reducePath q.2
      updL (updL m q.1 (some r)) q.1.bar (some (reversePath r)))
    (fun _ => none)

/-- The image of a letter under a (partial) edge map, as the algorithms read
it: `self._edge_map.image(a)`.  A missing letter raises `KeyError` in Python;
theorems that exercise this read carry a totality hypothesis. -/
def img (m : Letter → Option Path) (a : Letter) : Path := (m a).getD []

/-- A `GraphMap`: domain graph, codomain graph, the edge map (the dict of the
`WordMorphism`), and the lazily cached vertex map (`none` = not computed). -/
structure GraphMap where
  domain : Graph
  codomain : Graph
  edge_map : Letter → Option Path
  vertex_map : Option (Nat → Option Nat)

/-- `GraphMap.set_edge_map`: install the dict built by `setEdgeMapFn` and
invalidate the cached vertex map. -/
def GraphMap.set_edge_map (gm : GraphMap) (spec : List (Letter × Path)) : GraphMap :=
  { gm with edge_map := setEdgeMapFn spec, vertex_map := none }

/-- `GraphMap.__init__`: construction routes the given edge-map specification
through `set_edge_map`; the cached vertex map starts out not computed. -/
def GraphMap.mkGM (dom cod : Graph) (spec : List (Letter × Path)) : GraphMap :=
  { domain := dom, codomain := cod, edge_map := setEdgeMapFn spec, vertex_map := none }

/-- Application of the edge-map `WordMorphism` to a word: concatenate the
images of its letters (`self._edge_map(argument)`).  A missing letter raises
`KeyError` in Python; here it contributes `[]`, and theorems exercising this
carry totality hypotheses. -/
def applyMorph (m : Letter → Option Path) (w : Path) : Path :=
  w.foldr (fun x acc => img m x ++ acc) []

/-- `GraphMap.__call__` on an edge-path argument:
`self._codomain.reduce_path(self._edge_map(argument))`. -/
def GraphMap.applyPath (gm : GraphMap) (w : Path) : Path :=
  reducePath (applyMorph gm.edge_map w)

/-- `GraphMap.__mul__`: compose `f` with `g` (`f * g`), building
`result_map[a] = f(g.edge_map.image(a))` over the positive letters of `g`'s
domain and constructing a new `GraphMap` (hence routing through
`set_edge_map`). -/
def GraphMap.mul (f g : GraphMap) : GraphMap :=
  GraphMap.mkGM g.domain f.codomain
    (g.domain.pos.map (fun a => (Letter.pos a, f.applyPath (img g.edge_map (Letter.pos a)))))

/-- `GraphMap.compose_edge_map`: update the edge map of `gm` with
`edge_morph ∘ gm` over the positive letters, via `set_edge_map`. -/
def GraphMap.compose_edge_map (gm : GraphMap) (morph : Letter → Option Path) : GraphMap :=
  gm.set_edge_map
    (gm.domain.pos.map (fun a => (Letter.pos a, applyMorph morph (img gm.edge_map (Letter.pos a)))))

/-- `GraphMap.update_vertex_map`: derive the vertex map from the edge map,
writing entries only at the endpoints of positive letters with nonempty
image; vertices covered by no such letter are simply left out of the dict
(no exception is raised here). -/
def GraphMap.updateVertexMap (gm : GraphMap) : Nat → Option Nat :=
  gm.domain.pos.foldl
    (fun vm e =>
      let p := img gm.edge_map (Letter.pos e)
      if 0 < p.length then
        upd (upd vm (gm.domain.init e)
              (some (gm.codomain.initialVertex (p.headD (Letter.pos 0)))))
            (gm.domain.term e)
            (some (gm.codomain.terminalVertex (p.getLastD (Letter.pos 0))))
      else vm)
    (fun _ => none)

/-- `GraphMap.__call__` on a domain vertex: compute the vertex map on demand
when the cache is `none`, store it, and look the vertex up in the dict.  An
uncovered vertex gives `none` (Python: `KeyError` at `self._vertex_map[v]`). -/
def GraphMap.callVertex (gm : GraphMap) (v : Nat) : GraphMap × Option Nat :=
  match gm.vertex_map with
  | none =>
    let vm := gm.updateVertexMap
    ({ gm with vertex_map := some vm }, vm v)
  | some vm => (gm, vm v)

/-! ## Tighten (`GraphMap.tighten`, lines 208-256)

The Python loop keeps a dict `edge_map` over all letters of the domain
alphabet, repeatedly computes for each vertex the common prefix of the
images of its outgoing letters with nonempty image, and strips that prefix.
`G2 = self.domain()` in the source; `common_prefix_length` and
`reverse_path` only use the alphabet involution, so they appear here as the
plain word operations. -/

/-- One step of the prefix-computation pass (the first `for a in A1` loop of
`tighten`): a letter with nonempty image either installs its image as the
prefix candidate of its initial vertex or truncates the existing candidate
to the common prefix. -/
def pfxStep (G : Graph) (em : Letter → Path) (pr : Nat → Option Path)
    (a : Letter) : Nat → Option Path :=
  let u := em a
  let v := G.initialVertex a
  if 0 < u.length then
    match pr v with
    | some q => if 0 < q.length then upd pr v (some (q.take (commonPfxLen u q))) else pr
    | none => upd pr v (some u)
  else pr

/-- The prefix dict of one `tighten` iteration. -/
def pfxPass (G : Graph) (letters : List Letter) (em : Letter → Path) :
    Nat → Option Path :=
  letters.foldl (pfxStep G em) (fun _ => none)

/-- One step of the stripping pass (the second `for a in A1` loop of
`tighten`): when the letter's initial vertex carries a nonempty prefix, mark
not-done (`false`) and either strip the prefix from the front of `image(a)`
and its reverse from the back of `image(inv a)`, or, when `image(a)` is
empty, set `image(a)` to the reversed prefix and `image(inv a)` to the
prefix. -/
def stripStep (G : Graph) (pr : Nat → Option Path)
    (s : (Letter → Path) × Bool) (a : Letter) : (Letter → Path) × Bool :=
  let em := s.1
  match pr (G.initialVertex a) with
  | some p =>
    if 0 < p.length then
      let aa := a.bar
      if 0 < (em a).length then
        (updL (updL em a ((em a).drop p.length)) aa ((em aa).take ((em aa).length - p.length)),
          false)
      else
        (updL (updL em a (reversePath p)) aa p, false)
    else s
  | none => s

/-- The stripping pass of one `tighten` iteration; the Bool is Python's
`done` flag, entering the pass as `True`. -/
def stripPass (G : Graph) (letters : List Letter) (pr : Nat → Option Path)
    (em : Letter → Path) : (Letter → Path) × Bool :=
  letters.foldl (stripStep G pr) (em, true)

/-- The `while not done` fixed-point loop of `tighten`.  The Python loop has
no fuel: `none` models a run that has not finished within `fuel` iterations
(the loop does not terminate on every input). -/
def tightenLoop (G : Graph) (letters : List Letter) :
    Nat → (Letter → Path) → Option (Letter → Path)
  | 0, _ => none
  | fuel + 1, em =>
    let pr := pfxPass G letters em
    let s := stripPass G letters pr em
    if s.2 then some em else tightenLoop G letters fuel s.1

/-- `GraphMap.tighten`: build the working dict `edge_map[a] = self.image(a)`
over all letters (`KeyError`, i.e. `none`, when the stored edge map misses a
letter), run the fixed-point loop, and commit the result through
`set_edge_map`. -/
def GraphMap.tighten (fuel : Nat) (gm : GraphMap) : Option GraphMap :=
  let letters := gm.domain.allLetters
  if letters.all (fun a => (gm.edge_map a).isSome) then
    (tightenLoop gm.domain letters fuel (fun a => img gm.edge_map a)).map
      (fun em => gm.set_edge_map (letters.map (fun a => (a, em a))))
  else none

/-! ## Stallings folding (`subdivide_domain`, `illegal_turns`, `folding`,
lines 260-363)

The body of `folding` iterates over a variable `A` that is not defined
anywhere in `graph_map.py`; following the spec's design note, every such
read is modelled as the alphabet of the current domain graph. -/

/-- `GraphMap.subdivide_domain(e)`: replace the edge `e`, whose image is
`w`, by a chain of `w.length` edges through `w.length - 1` new vertices and
update the edge map so the `i`-th edge of the chain maps to the `i`-th
letter of `w`.  The graph rewiring (`set_terminal_vertex`, `add_edge`,
`new_vertices`, `add_new_letters`) is delegated to the collaborator
primitives modelled above.  The Python method also returns a substitution
`result_map` on the old alphabet; no caller in `graph_map.py` uses it, and
it is not modelled. -/
def GraphMap.subdivide_domain (gm : GraphMap) (e : Letter) : GraphMap :=
  let w := img gm.edge_map e
  let n := w.length - 1
  let newIds := gm.domain.freshIds n
  let newVs := gm.domain.freshVertices n
  let G0 : Graph := { gm.domain with vertices := gm.domain.vertices ++ newVs }
  let G' := (List.range n).foldl
    (fun G i =>
      let v := newVs.getD i 0
      if i = 0 then
        let vt := G.terminalVertex e
        (G.setTerminalVertex e v).addEdge v vt (newIds.getD 0 0)
      else
        let prev := Letter.pos (newIds.getD (i - 1) 0)
        let vt := G.terminalVertex prev
        (G.setTerminalVertex prev v).addEdge v vt (newIds.getD i 0))
    G0
  let d : List (Letter × Path) :=
    (newIds.enum.map (fun q => (Letter.pos q.2, [w.getD (q.1 + 1) (Letter.pos 0)])))
    ++ [(e, [w.getD 0 (Letter.pos 0)])]
    ++ ((G'.pos.filter (fun a => decide (a ∉ newIds) && decide (Letter.pos a ≠ e))).map
          (fun a => (Letter.pos a, img gm.edge_map (Letter.pos a))))
  { gm with domain := G' }.set_edge_map d

/-- `GraphMap.illegal_turns(turns)`: keep the turns whose two letters have
images beginning with the same letter.  The Python code indexes
`self.image(turn[i])[0]` unconditionally, so a turn involving a letter with
an empty (or missing) image raises `IndexError` (`KeyError`): result
`none`. -/
def illegalTurns (em : Letter → Option Path) :
    List (Letter × Letter) → Option (List (Letter × Letter))
  | [] => some []
  | t :: ts =>
    match (em t.1).bind List.head?, (em t.2).bind List.head? with
    | some x, some y =>
      match illegalTurns em ts with
      | some r => some (if x = y then t :: r else r)
      | none => none
    | _, _ => none

/-- The `while len(Il_turns) > 0` loop of `folding`: take the first illegal
turn, collect the full gate of letters at its initial vertex that form an
illegal turn with it (deduplicated), fold the gate with the graph
collaborator's primitive, rebuild the edge map of the survivors through
`set_edge_map`, and recompute the (illegal) turns.  `fuel` bounds the number
of iterations; each fold removes at least one edge pair, so
`gm.domain.pos.length + 1` always suffices (see the folding theorems). -/
def foldLoop : Nat → GraphMap → List (Letter × Letter) → Option GraphMap
  | 0, _, _ => none
  | fuel + 1, gm, il =>
    match il with
    | [] => some gm
    | t :: _ =>
      let e1 := t.1
      let edge_list :=
        (e1 :: gm.domain.allLetters.filter
          (fun a => decide (gm.domain.initialVertex a = gm.domain.initialVertex e1)
            && decide (a ≠ e1) && (decide ((e1, a) ∈ il) || decide ((a, e1) ∈ il)))).dedup
      let G' := gm.domain.fold edge_list
      let a0 := edge_list.headD e1
      let d : List (Letter × Path) :=
        (a0, img gm.edge_map a0)
        :: ((G'.allLetters.filter (fun a => decide (a ∉ edge_list))).map
              (fun a => (a, img gm.edge_map a)))
      let gm' := { gm with domain := G' }.set_edge_map d
      match illegalTurns gm'.edge_map G'.turns with
      | none => none
      | some il' => foldLoop fuel gm' il'

/-- `GraphMap.folding`: subdivide every letter whose image is longer than one
(phase A; the new letters introduced along the way already have single-letter
images, so iterating over the letters present at entry is exhaustive), then
run the fold loop until no illegal turn remains. -/
def GraphMap.folding (gm : GraphMap) : Option GraphMap :=
  let gm1 := gm.domain.allLetters.foldl
    (fun g a => if 1 < (img g.edge_map a).length then g.subdivide_domain a else g) gm
  match illegalTurns gm1.edge_map gm1.domain.turns with
  | none => none
  | some il => foldLoop (gm1.domain.pos.length + 1) gm1 il

/-! ## Inverse orchestration (`GraphMap.inverse`, lines 141-205)

The spanning trees `t1`, `t2` (dicts vertex ↦ tree path from the basepoint)
are produced by the graph collaborator's `spanning_tree()`; they enter the
model as parameters.  The free-group-automorphism collaborator enters as the
parameter `invertAut`; per the spec's error taxonomy its failure is
`NotAHomotopyEquivalenceError`, and it is propagated, never caught. -/

/-- Failure of the free-group-automorphism inversion, modelled from the
spec's error taxonomy. -/
inductive InvErr where
  | NotAHomotopyEquivalenceError : InvErr
  deriving DecidableEq

/-- The tree-membership test of `inverse`: letter `a` is in the spanning
tree `t` iff the tree paths of its endpoints differ by exactly the crossing
of `a`; `inverse` keeps the letters for which this fails. -/
def notInTree (G : Graph) (t : Nat → Path) (a : Nat) : Bool :=
  let l : Int := ((t (G.init a)).length : Int) - ((t (G.term a)).length : Int)
  (decide (l ≠ 1) || decide ((t (G.init a)).getLast? ≠ some (Letter.neg a)))
  && (decide (l ≠ -1) || decide ((t (G.term a)).getLast? ≠ some (Letter.pos a)))

/-- The loop of `inverse` over `translate`: generator `i` of the new free
group stands for the `i`-th non-tree positive letter of `G1`. -/
def translateOf (notTree1 : List Nat) : Letter → Letter
  | .pos j => .pos (notTree1.getD j 0)
  | .neg j => .neg (notTree1.getD j 0)

/-- The renaming of `inverse`: the `i`-th non-tree positive letter of the
codomain becomes generator `i`; tree letters are dropped. -/
def renameOf (notTree2 : List Nat) (b : Letter) : Option Letter :=
  match b with
  | .pos a => (notTree2.indexOf? a).map (fun i => Letter.pos i)
  | .neg a => (notTree2.indexOf? a).map (fun i => Letter.neg i)

/-- The automorphism `phi` handed to the external inversion: generator `i`
maps to the image under `gm` of the tree-conjugated loop of the `i`-th
non-tree letter of the domain, rewritten over the generators of the codomain
(tree letters contribute nothing, and `F(...)` reduces the word). -/
def inversePhi (gm : GraphMap) (t1 t2 : Nat → Path) : List (Letter × Path) :=
  let G1 := gm.domain
  let G2 := gm.codomain
  let notTree1 := G1.pos.filter (notInTree G1 t1)
  let notTree2 := G2.pos.filter (notInTree G2 t2)
  notTree1.enum.map (fun q =>
    (Letter.pos q.1,
      reducePath
        ((gm.applyPath
            (t1 (G1.init q.2) ++ [Letter.pos q.2] ++ reversePath (t1 (G1.term q.2)))).filterMap
          (renameOf notTree2))))

/-- `GraphMap.inverse`: build `phi`, delegate its inversion, translate the
inverse automorphism's generator images back to paths of the domain graph by
tree conjugation, and return the resulting `GraphMap` from the codomain to
the domain.  The failure of the delegated inversion is propagated
unchanged. -/
def GraphMap.inverse (gm : GraphMap) (t1 t2 : Nat → Path)
    (invertAut : List (Letter × Path) → Except InvErr (List (Letter × Path))) :
    Except InvErr GraphMap :=
  let G1 := gm.domain
  let G2 := gm.codomain
  let notTree1 := G1.pos.filter (notInTree G1 t1)
  let notTree2 := G2.pos.filter (notInTree G2 t2)
  match invertAut (inversePhi gm t1 t2) with
  | .error e => .error e
  | .ok psi =>
    let treeSpec : List (Letter × Path) :=
      (G2.pos.filter (fun a => !notInTree G2 t2 a)).map (fun a => (Letter.pos a, []))
    let mainSpec : List (Letter × Path) :=
      notTree2.enum.map (fun q =>
        (Letter.pos q.2,
          reducePath
            ((((psi.lookup (Letter.pos q.1)).getD []).map (translateOf notTree1)).foldr
              (fun c acc =>
                t1 (G1.initialVertex c) ++ [c] ++ reversePath (t1 (G1.terminalVertex c)) ++ acc)
              [])))
    .ok (GraphMap.mkGM G2 G1 (treeSpec ++ mainSpec))

/-! ## Specification predicates and measures -/

/-- The inverse-consistency invariant of an edge map: for every letter `b`,
the stored image of `inv(b)` is exactly the reverse of the stored image of
`b` (both present or both absent), and every stored image is reduced. -/
def EMInv (m : Letter → Option Path) : Prop :=
  ∀ b : Letter, m b.bar = (m b).map reversePath ∧ ∀ w, m b = some w → reducedB w = true

/-- Totality of an edge map on a graph's alphabet (what the Python dict
accesses assume; a violation is a `KeyError`). -/
def EMTotal (G : Graph) (m : Letter → Option Path) : Prop :=
  ∀ a ∈ G.allLetters, (m a).isSome = true

/-- Inverse-consistency for the total working dict used inside `tighten`. -/
def consistentAll (em : Letter → Path) : Prop :=
  ∀ a : Letter, em a.bar = reversePath (em a)

/-- All images of the total working dict are reduced. -/
def reducedAll (em : Letter → Path) : Prop :=
  ∀ a : Letter, reducedB (em a) = true

/-- Total length of the edge-map images, summed over the given letters. -/
def totalLen (letters : List Letter) (em : Letter → Path) : Nat :=
  (letters.map (fun a => (em a).length)).sum

/-- The prefix length stripped at a vertex during one `tighten` iteration. -/
def pLen (pr : Nat → Option Path) (v : Nat) : Nat := ((pr v).getD []).length

/-! ## Concrete instances used by witnesses and counterexamples -/

/-- A rose with two petals `0`, `1` at the single vertex `0`. -/
def roseG : Graph := { vertices := [0], pos := [0, 1], init := fun _ => 0, term := fun _ => 0 }

/-- A rose with one petal `10` at the single vertex `0`. -/
def roseC : Graph := { vertices := [0], pos := [10], init := fun _ => 0, term := fun _ => 0 }

/-- The spec's tighten scenario: `a ↦ ab`, `b ↦ b` on the two-petal rose. -/
def gmAB : GraphMap :=
  GraphMap.mkGM roseG roseG
    [(Letter.pos 0, [Letter.pos 0, Letter.pos 1]), (Letter.pos 1, [Letter.pos 1])]

/-- The spec's folding scenario: `a ↦ c`, `b ↦ c`. -/
def gmCC : GraphMap :=
  GraphMap.mkGM roseG roseC
    [(Letter.pos 0, [Letter.pos 10]), (Letter.pos 1, [Letter.pos 10])]

/-- A single edge `0 → 1`. -/
def edgeG : Graph := { vertices := [0, 1], pos := [0], init := fun _ => 0, term := fun _ => 1 }

/-- Edge map of the single-edge graph: the edge maps to one letter.  On this
input every `tighten` iteration marks not-done without shrinking the total
image length, and the loop never terminates. -/
def em3 : Letter → Path := fun a =>
  if a = Letter.pos 0 then [Letter.pos 10]
  else if a = Letter.neg 0 then [Letter.neg 10] else []

/-- Two parallel edges `0 → 1`. -/
def g3w : Graph := { vertices := [0, 1], pos := [0, 1], init := fun _ => 0, term := fun _ => 1 }

/-- Edge map on the two parallel edges: images `[c,d]` and `[c,e]` share the
prefix `[c]` at the tail vertex and nothing at the head vertex, so one
iteration strips strictly. -/
def em3w : Letter → Path := fun a =>
  if a = Letter.pos 0 then [Letter.pos 10, Letter.pos 11]
  else if a = Letter.pos 1 then [Letter.pos 10, Letter.pos 12]
  else if a = Letter.neg 0 then [Letter.neg 11, Letter.neg 10]
  else if a = Letter.neg 1 then [Letter.neg 12, Letter.neg 10] else []

/-- Domain with an edge `0 → 1` of empty image and a loop at `0` with
image `c`: vertex `1` is covered by no letter with nonempty image. -/
def gm6dom : Graph :=
  { vertices := [0, 1], pos := [0, 1], init := fun _ => 0,
    term := fun i => if i = 0 then 1 else 0 }

/-- GraphMap whose vertex map is undefined at vertex `1`. -/
def gm6 : GraphMap :=
  GraphMap.mkGM gm6dom roseC [(Letter.pos 0, []), (Letter.pos 1, [Letter.pos 10])]

/-- An edge map with an empty image at letter `0`: `illegal_turns` indexes
`image(a)[0]` and fails on it. -/
def em8 : Letter → Option Path :=
  setEdgeMapFn [(Letter.pos 0, []), (Letter.pos 1, [Letter.pos 9])]

/-- An edge map with nonempty single-letter images on letters `0` and `1`. -/
def em8w : Letter → Option Path :=
  setEdgeMapFn [(Letter.pos 0, [Letter.pos 9]), (Letter.pos 1, [Letter.pos 9])]

/-- A single edge `0 → 1` whose image is the length-two path `[c, d]`. -/
def g9 : Graph := { vertices := [0, 1], pos := [0], init := fun _ => 0, term := fun _ => 1 }

/-- Codomain for the subdivision scenario: two edges `10 : 5 → 6` and
`11 : 6 → 5`. -/
def c9 : Graph :=
  { vertices := [5, 6], pos := [10, 11],
    init := fun i => if i = 10 then 5 else 6, term := fun i => if i = 10 then 6 else 5 }

/-- The spec's subdivision scenario: `e ↦ [c, d]` on a single edge. -/
def gm9 : GraphMap :=
  GraphMap.mkGM g9 c9 [(Letter.pos 0, [Letter.pos 10, Letter.pos 11])]

/-- A GraphMap with an empty image (letter `0`), on which `folding` fails
(IndexError inside `illegal_turns`). -/
def gmE : GraphMap :=
  GraphMap.mkGM roseG roseC [(Letter.pos 0, []), (Letter.pos 1, [Letter.pos 10])]

/-! ## Basic lemmas on letters and paths -/

theorem bar_bar (a : Letter) : a.bar.bar = a := by
  cases a <;> rfl

theorem bar_ne (a : Letter) : a.bar ≠ a := by
  cases a <;> simp [Letter.bar]

theorem bar_inj {a b : Letter} (h : a.bar = b.bar) : a = b := by
  have := congrArg Letter.bar h
  rwa [bar_bar, bar_bar] at this

theorem length_reversePath (w : Path) : (reversePath w).length = w.length := by
  simp [reversePath]

theorem reversePath_reversePath (w : Path) : reversePath (reversePath w) = w := by
  simp only [reversePath, List.map_reverse, List.reverse_reverse, List.map_map]
  have h : Letter.bar ∘ Letter.bar = id := funext fun a => bar_bar a
  rw [h, List.map_id]

theorem reversePath_cons (a : Letter) (w : Path) :
    reversePath (a :: w) = reversePath w ++ [a.bar] := by
  simp [reversePath]

theorem reversePath_nil : reversePath [] = [] := rfl

theorem reducedB_cons_cons {a b : Letter} {w : Path} :
    reducedB (a :: b :: w) = (decide (b ≠ a.bar) && reducedB (b :: w)) := rfl

theorem reducedB_tail {a : Letter} {w : Path} (h : reducedB (a :: w) = true) :
    reducedB w = true := by
  cases w with
  | nil => rfl
  | cons b v =>
    rw [reducedB_cons_cons, Bool.and_eq_true] at h
    exact h.2

theorem reducedB_redCons {a : Letter} {w : Path} (h : reducedB w = true) :
    reducedB (redCons a w) = true := by
  cases w with
  | nil => rfl
  | cons b v =>
    rw [redCons]
    split
    · exact reducedB_tail h
    · rw [reducedB_cons_cons, h, Bool.and_true]
      simpa using fun hc => absurd hc (by assumption)

theorem reducedB_reducePath (w : Path) : reducedB (reducePath w) = true := by
  induction w with
  | nil => rfl
  | cons a v ih => exact reducedB_redCons ih

theorem reducePath_eq_self {w : Path} (h : reducedB w = true) : reducePath w = w := by
  induction w with
  | nil => rfl
  | cons a v ih =>
    have hv : reducePath v = v := ih (reducedB_tail h)
    show redCons a (reducePath v) = a :: v
    rw [hv]
    cases v with
    | nil => rfl
    | cons b u =>
      rw [reducedB_cons_cons, Bool.and_eq_true, decide_eq_true_iff] at h
      rw [redCons, if_neg h.1]

theorem reducedB_drop {w : Path} (h : reducedB w = true) (k : Nat) :
    reducedB (w.drop k) = true := by
  induction k generalizing w with
  | zero => simpa using h
  | succ n ih =>
    cases w with
    | nil => rfl
    | cons a v => exact ih (reducedB_tail h)

theorem reducedB_take {w : Path} (h : reducedB w = true) (k : Nat) :
    reducedB (w.take k) = true := by
  induction w generalizing k with
  | nil => simp [reducedB]
  | cons a v ih =>
    cases k with
    | zero => rfl
    | succ n =>
      cases v with
      | nil => cases n <;> rfl
      | cons b u =>
        cases n with
        | zero => rfl
        | succ m =>
          rw [reducedB_cons_cons, Bool.and_eq_true] at h
          have := ih h.2 (m + 1)
          simp only [List.take] at this ⊢
          rw [reducedB_cons_cons, h.1, Bool.true_and]
          exact this

theorem reducedB_append_single {u : Path} {x : Letter} (hu : reducedB u = true)
    (hx : ∀ y, u.getLast? = some y → x ≠ y.bar) : reducedB (u ++ [x]) = true := by
  induction u with
  | nil => rfl
  | cons a v ih =>
    cases v with
    | nil =>
      have : x ≠ a.bar := hx a rfl
      simpa [reducedB] using this
    | cons b u' =>
      rw [reducedB_cons_cons, Bool.and_eq_true] at hu
      have := ih hu.2 (by intro y hy; exact hx y (by simpa using hy))
      simp only [List.cons_append] at this ⊢
      rw [reducedB_cons_cons, hu.1, Bool.true_and]
      exact this

theorem getLast?_reversePath (w : Path) :
    (reversePath w).getLast? = w.head?.map Letter.bar := by
  cases w with
  | nil => rfl
  | cons a v => simp [reversePath_cons]

theorem reducedB_reversePath {w : Path} (h : reducedB w = true) :
    reducedB (reversePath w) = true := by
  induction w with
  | nil => rfl
  | cons a v ih =>
    rw [reversePath_cons]
    refine reducedB_append_single (ih (reducedB_tail h)) ?_
    intro y hy
    rw [getLast?_reversePath] at hy
    cases v with
    | nil => simp at hy
    | cons b u =>
      simp only [List.head?, Option.map_some] at hy
      rw [reducedB_cons_cons, Bool.and_eq_true, decide_eq_true_iff] at h
      cases hy
      intro hc
      exact h.1 (by rw [hc, bar_bar])

theorem reversePath_drop (w : Path) (k : Nat) :
    reversePath (w.drop k) = (reversePath w).take (w.length - k) := by
  simp only [reversePath, List.map_drop]
  rw [List.reverse_drop]
  simp

/-! ## The dict built by `set_edge_map` -/

theorem find_append_or {α : Type} (p : α → Bool) (l₁ l₂ : List α) :
    (l₁ ++ l₂).find? p = (l₁.find? p).or (l₂.find? p) := by
  induction l₁ with
  | nil => simp [Option.or]
  | cons a l ih =>
    by_cases h : p a
    · simp [List.find?, h, Option.or]
    · simp only [List.cons_append, List.find?, Bool.of_not_eq_true h]
      exact ih

theorem setEdgeMapFn_go (spec : List (Letter × Path)) (m : Letter → Option Path)
    (b : Letter) :
    spec.foldl
      (fun m q =>
        let r := reducePath q.2
        updL (updL m q.1 (some r)) q.1.bar (some (reversePath r))) m b =
    match spec.reverse.find? (fun q => decide (b = q.1) || decide (b = q.1.bar)) with
    | some q =>
      if b = q.1.bar then some (reversePath (reducePath q.2)) else some (reducePath q.2)
    | none => m b := by
  induction spec generalizing m with
  | nil => rfl
  | cons q0 rest ih =>
    rw [List.foldl_cons, ih, List.reverse_cons, find_append_or]
    cases hfind : rest.reverse.find? (fun q => decide (b = q.1) || decide (b = q.1.bar)) with
    | some q => simp [Option.or]
    | none =>
      simp only [Option.or, List.find?]
      by_cases h1 : b = q0.1.bar
      · simp [h1, updL, bar_ne q0.1]
      · by_cases h2 : b = q0.1
        · simp [h1, h2, updL]
        · simp [h1, h2, updL]

theorem setEdgeMapFn_eq (spec : List (Letter × Path)) (b : Letter) :
    setEdgeMapFn spec b =
    match spec.reverse.find? (fun q => decide (b = q.1) || decide (b = q.1.bar)) with
    | some q =>
      if b = q.1.bar then some (reversePath (reducePath q.2)) else some (reducePath q.2)
    | none => none :=
  setEdgeMapFn_go spec (fun _ => none) b

theorem bar_eq_iff {a b : Letter} : a.bar = b ↔ a = b.bar := by
  constructor
  · intro h; rw [← h, bar_bar]
  · intro h; rw [h, bar_bar]

/-- The central invariant lemma: any dict built by `set_edge_map` satisfies
inverse-consistency with reduced images, whatever the specification. -/
theorem EMInv_setEdgeMapFn (spec : List (Letter × Path)) : EMInv (setEdgeMapFn spec) := by
  intro b
  have hpred : (fun q : Letter × Path => decide (b.bar = q.1) || decide (b.bar = q.1.bar))
      = (fun q : Letter × Path => decide (b = q.1) || decide (b = q.1.bar)) := by
    funext q
    rw [Bool.or_comm]
    congr 1
    · exact decide_eq_decide.mpr ⟨fun h => bar_inj h, fun h => by rw [h]⟩
    · exact decide_eq_decide.mpr bar_eq_iff
  constructor
  · rw [setEdgeMapFn_eq spec b.bar, setEdgeMapFn_eq spec b, hpred]
    cases hfind : spec.reverse.find? (fun q => decide (b = q.1) || decide (b = q.1.bar)) with
    | none => rfl
    | some q =>
      have hq := List.find?_some hfind
      simp only [Bool.or_eq_true, decide_eq_true_iff] at hq
      rcases hq with hq | hq
      · have h1 : (b = q.1.bar) = False := eq_false (by
          rw [hq]; exact fun hc => bar_ne q.1 hc.symm)
        have h2 : (b.bar = q.1.bar) = True := eq_true (by rw [hq])
        simp [h1, h2]
      · have h1 : (b = q.1.bar) = True := eq_true hq
        have h2 : (b.bar = q.1.bar) = False := eq_false (by
          intro hc
          rw [hq, bar_bar] at hc
          exact bar_ne q.1 hc.symm)
        simp [h1, h2, reversePath_reversePath]
  · intro w hw
    rw [setEdgeMapFn_eq] at hw
    split at hw
    · split at hw
      · cases hw; exact reducedB_reversePath (reducedB_reducePath _)
      · cases hw; exact reducedB_reducePath _
    · exact absurd hw (by simp)

/-! ## Claim C5: missing positive letters in `set_edge_map` -/

/-- Claim C5, counterexample: a specification that assigns no image to the
positive letter `1` (neither directly nor via its inverse) does not make
`set_edge_map` fail; the letter is silently left unmapped while the rest of
the map is built (`graph_map.py` contains no totality check and no
`MalformedEdgeMapError`). -/
theorem C5_counterexample :
    setEdgeMapFn [(Letter.pos 0, [Letter.pos 5])] (Letter.pos 1) = none ∧
    setEdgeMapFn [(Letter.pos 0, [Letter.pos 5])] (Letter.pos 0) = some [Letter.pos 5] ∧
    setEdgeMapFn [(Letter.pos 0, [Letter.pos 5])] (Letter.neg 0) = some [Letter.neg 5] := by
  refine ⟨rfl, rfl, rfl⟩

/-- Claim C5, amended: `set_edge_map` performs no totality check; a letter
assigned no image by the specification, neither directly nor via its
inverse, is silently left unmapped (`none`), and lookups of it fail only
later (`KeyError`).  No `MalformedEdgeMapError` is raised. -/
theorem C5_amended (spec : List (Letter × Path)) (b : Letter)
    (h : ∀ q ∈ spec, q.1 ≠ b ∧ q.1.bar ≠ b) :
    setEdgeMapFn spec b = none := by
  rw [setEdgeMapFn_eq]
  have : spec.reverse.find? (fun q => decide (b = q.1) || decide (b = q.1.bar)) = none := by
    rw [List.find?_eq_none]
    intro q hq
    have := h q (List.mem_reverse.mp hq)
    simp only [Bool.or_eq_true, decide_eq_true_iff]
    rintro (hc | hc)
    · exact this.1 hc.symm
    · exact this.2 hc.symm
  rw [this]

/-- Claim C5, witness for the amended statement at a concrete input. -/
theorem C5_amended_witness :
    setEdgeMapFn [(Letter.pos 0, [Letter.pos 5])] (Letter.pos 1) = none :=
  C5_amended _ _ (by decide)

/-! ## Claim C8: `illegal_turns` -/

/-- Claim C8, counterexample: on the single turn `(0, 1)` where letter `0`
has the (stored, reduced) empty image, `illegal_turns` fails — Python raises
`IndexError` at `self.image(turn[0])[0]` — instead of being total and
returning the empty list of illegal turns. -/
theorem C8_counterexample :
    illegalTurns em8 [(Letter.pos 0, Letter.pos 1)] = none ∧
    em8 (Letter.pos 0) = some [] ∧ em8 (Letter.pos 1) = some [Letter.pos 9] := by
  refine ⟨rfl, rfl, rfl⟩

/-- Claim C8, amended: when every letter occurring in the turn list has a
present, nonempty image, `illegal_turns` returns exactly the turns whose two
images begin with the same letter; a turn involving an empty (or missing)
image makes it raise `IndexError` (`KeyError`) instead. -/
theorem C8_amended (em : Letter → Option Path) (turns : List (Letter × Letter))
    (h : ∀ t ∈ turns, ((em t.1).bind List.head?).isSome = true ∧
      ((em t.2).bind List.head?).isSome = true) :
    illegalTurns em turns =
      some (turns.filter
        (fun t => decide ((em t.1).bind List.head? = (em t.2).bind List.head?))) := by
  induction turns with
  | nil => rfl
  | cons t ts ih =>
    have ht := h t (List.mem_cons_self t ts)
    obtain ⟨x, hx⟩ := Option.isSome_iff_exists.mp ht.1
    obtain ⟨y, hy⟩ := Option.isSome_iff_exists.mp ht.2
    have hts := ih (fun u hu => h u (List.mem_cons_of_mem t hu))
    rw [illegalTurns, hx, hy, hts]
    by_cases hxy : x = y
    · simp [List.filter, hx, hy, hxy]
    · have : ((em t.1).bind List.head? = (em t.2).bind List.head?) = False := by
        simp only [hx, hy, eq_iff_iff, iff_false]
        exact fun hc => hxy (Option.some_injective _ hc)
      simp [List.filter, hx, hy, hxy, this]

/-- Claim C8, witness for the amended statement at a concrete input: with
nonempty images `0 ↦ [9]`, `1 ↦ [9]`, the turns `(0, 1)` and `(0, inv 1)`
are classified by first image letters. -/
theorem C8_amended_witness :
    illegalTurns em8w [(Letter.pos 0, Letter.pos 1), (Letter.pos 0, Letter.neg 1)] =
      some ([(Letter.pos 0, Letter.pos 1), (Letter.pos 0, Letter.neg 1)].filter
        (fun t => decide ((em8w t.1).bind List.head? = (em8w t.2).bind List.head?))) :=
  C8_amended em8w _ (by decide)

/-! ## Claim C6: the vertex map -/

theorem updateVertexMap_go (gm : GraphMap) (l : List Nat) (vm : Nat → Option Nat)
    (v : Nat) :
    (l.foldl
      (fun vm e =>
        let p := img gm.edge_map (Letter.pos e)
        if 0 < p.length then
          upd (upd vm (gm.domain.init e)
                (some (gm.codomain.initialVertex (p.headD (Letter.pos 0)))))
              (gm.domain.term e)
              (some (gm.codomain.terminalVertex (p.getLastD (Letter.pos 0))))
        else vm) vm) v = none ↔
    vm v = none ∧ ∀ e ∈ l, (img gm.edge_map (Letter.pos e)).length = 0 ∨
      (v ≠ gm.domain.init e ∧ v ≠ gm.domain.term e) := by
  induction l generalizing vm with
  | nil => simp
  | cons e rest ih =>
    rw [List.foldl_cons, ih]
    by_cases hp : 0 < (img gm.edge_map (Letter.pos e)).length
    · simp only [if_pos hp, upd]
      by_cases h1 : v = gm.domain.term e
      · simp only [if_pos h1]
        constructor
        · rintro ⟨hc, -⟩; exact absurd hc (by simp)
        · rintro ⟨hc, hrest⟩
          rcases hrest e (List.mem_cons_self e rest) with hc | hc
          · omega
          · exact absurd h1 hc.2
      · simp only [if_neg h1]
        by_cases h2 : v = gm.domain.init e
        · simp only [if_pos h2]
          constructor
          · rintro ⟨hc, -⟩; exact absurd hc (by simp)
          · rintro ⟨hc, hrest⟩
            rcases hrest e (List.mem_cons_self e rest) with hc | hc
            · omega
            · exact absurd h2 hc.1
        · simp only [if_neg h2]
          constructor
          · rintro ⟨hvm, hrest⟩
            exact ⟨hvm, by
              intro f hf
              rcases List.mem_cons.mp hf with hf | hf
              · subst hf; exact Or.inr ⟨h2, h1⟩
              · exact hrest f hf⟩
          · rintro ⟨hvm, hall⟩
            exact ⟨hvm, fun f hf => hall f (List.mem_cons_of_mem e hf)⟩
    · simp only [if_neg hp]
      constructor
      · rintro ⟨hvm, hrest⟩
        refine ⟨hvm, ?_⟩
        intro f hf
        rcases List.mem_cons.mp hf with hf | hf
        · subst hf; exact Or.inl (by omega)
        · exact hrest f hf
      · rintro ⟨hvm, hall⟩
        exact ⟨hvm, fun f hf => hall f (List.mem_cons_of_mem e hf)⟩

/-- Claim C6, counterexample: vertex `1` of `gm6` has no incident letter
with nonempty image, yet applying the map to it does not raise any
`DisconnectedImageError`: the on-demand computation succeeds, installs a
partial vertex map, and the lookup itself comes back empty (Python:
`KeyError` at `self._vertex_map[1]`), while vertex `0` resolves fine. -/
theorem C6_counterexample :
    (gm6.callVertex 1).2 = none ∧ (gm6.callVertex 0).2 = some 0 ∧
    (gm6.callVertex 1).1.vertex_map.isSome = true := by
  refine ⟨rfl, rfl, rfl⟩

/-- Claim C6, amended: applying a GraphMap to a vertex with a stale cache
triggers `update_vertex_map`, which never fails: it installs the partial map
derived from the edge map, defined at `v` exactly when `v` is an endpoint of
some positive letter with nonempty image; an uncovered vertex fails at the
dictionary lookup (`KeyError`), not with a `DisconnectedImageError` during
the computation. -/
theorem C6_amended (gm : GraphMap) (v : Nat) (hcache : gm.vertex_map = none) :
    (gm.callVertex v).1.vertex_map = some gm.updateVertexMap ∧
    (gm.callVertex v).2 = gm.updateVertexMap v ∧
    (gm.updateVertexMap v = none ↔
      ∀ e ∈ gm.domain.pos, (img gm.edge_map (Letter.pos e)).length = 0 ∨
        (v ≠ gm.domain.init e ∧ v ≠ gm.domain.term e)) := by
  refine ⟨?_, ?_, ?_⟩
  · rw [GraphMap.callVertex, hcache]
  · rw [GraphMap.callVertex, hcache]
  · rw [GraphMap.updateVertexMap, updateVertexMap_go]
    simp

/-- Claim C6, witness for the amended statement on the concrete `gm6`. -/
theorem C6_amended_witness :
    (gm6.callVertex 1).2 = gm6.updateVertexMap 1 ∧ gm6.updateVertexMap 1 = none := by
  have h := C6_amended gm6 1 rfl
  exact ⟨h.2.1, h.2.2.mpr (by decide)⟩

/-! ## Claim C7: propagation of the inversion failure -/

/-- Claim C7: when the delegated free-group-automorphism inversion reports
failure (`NotAHomotopyEquivalenceError` in the spec's taxonomy), the
`inverse` orchestration fails with exactly that error: the failure is
propagated, not masked (there is no `try` in `graph_map.py`). -/
theorem C7_inverse_propagates (gm : GraphMap) (t1 t2 : Nat → Path)
    (invertAut : List (Letter × Path) → Except InvErr (List (Letter × Path)))
    (e : InvErr) (h : invertAut (inversePhi gm t1 t2) = .error e) :
    gm.inverse t1 t2 invertAut = .error e := by
  rw [GraphMap.inverse, h]

/-- Claim C7, witness: a collaborator that always reports non-invertibility
makes `inverse` fail with `NotAHomotopyEquivalenceError` on a concrete map. -/
theorem C7_witness :
    gmCC.inverse (fun _ => []) (fun _ => [])
        (fun _ => Except.error InvErr.NotAHomotopyEquivalenceError) =
      Except.error InvErr.NotAHomotopyEquivalenceError :=
  C7_inverse_propagates gmCC (fun _ => []) (fun _ => [])
    (fun _ => Except.error InvErr.NotAHomotopyEquivalenceError)
    InvErr.NotAHomotopyEquivalenceError rfl

/-! ## Claim C10: the frame of `tighten` -/

/-- Claim C10: a successful `tighten` run leaves the domain and codomain
graph objects untouched — it adds and removes no vertices or edges — and
touches only the stored edge map and the cached vertex map, which it
invalidates (`set_edge_map` sets it to not-computed). -/
theorem C10_tighten_frame (gm gm' : GraphMap) (fuel : Nat)
    (h : GraphMap.tighten fuel gm = some gm') :
    gm'.domain = gm.domain ∧ gm'.codomain = gm.codomain ∧ gm'.vertex_map = none := by
  rw [GraphMap.tighten] at h
  split at h
  · rcases Option.map_eq_some'.mp h with ⟨em, _, hgm⟩
    subst hgm
    exact ⟨rfl, rfl, rfl⟩
  · cases h

/-- Claim C10, witness: the concrete `tighten` run on the spec's scenario
`a ↦ ab`, `b ↦ b` preserves the graphs and invalidates the cache. -/
theorem C10_witness :
    ((GraphMap.tighten 1 gmAB).getD gmAB).domain = gmAB.domain ∧
    ((GraphMap.tighten 1 gmAB).getD gmAB).codomain = gmAB.codomain ∧
    ((GraphMap.tighten 1 gmAB).getD gmAB).vertex_map = none :=
  C10_tighten_frame gmAB ((GraphMap.tighten 1 gmAB).getD gmAB) 1 rfl

/-! ## Claim C1: the inverse-consistency invariant after every mutation -/

theorem EMInv_subdivide (gm : GraphMap) (e : Letter) :
    EMInv (gm.subdivide_domain e).edge_map :=
  EMInv_setEdgeMapFn _

theorem phaseA_EMInv (l : List Letter) (gm : GraphMap) (h : EMInv gm.edge_map) :
    EMInv ((l.foldl
      (fun g a => if 1 < (img g.edge_map a).length then g.subdivide_domain a else g)
      gm).edge_map) := by
  induction l generalizing gm with
  | nil => exact h
  | cons a rest ih =>
    rw [List.foldl_cons]
    apply ih
    by_cases hc : 1 < (img gm.edge_map a).length
    · rw [if_pos hc]; exact EMInv_subdivide gm a
    · rw [if_neg hc]; exact h

theorem foldLoop_EMInv (fuel : Nat) (gm : GraphMap) (il : List (Letter × Letter))
    (gm' : GraphMap) (hinv : EMInv gm.edge_map) (h : foldLoop fuel gm il = some gm') :
    EMInv gm'.edge_map := by
  induction fuel generalizing gm il with
  | zero => cases h
  | succ n ih =>
    cases il with
    | nil =>
      simp only [foldLoop, Option.some.injEq] at h
      subst h
      exact hinv
    | cons t ts =>
      simp only [foldLoop] at h
      split at h
      · cases h
      · exact ih _ _ (EMInv_setEdgeMapFn _) h

theorem tighten_EMInv (fuel : Nat) (gm gm' : GraphMap)
    (h : GraphMap.tighten fuel gm = some gm') : EMInv gm'.edge_map := by
  rw [GraphMap.tighten] at h
  split at h
  · rcases Option.map_eq_some'.mp h with ⟨em, _, hgm⟩
    subst hgm
    exact EMInv_setEdgeMapFn _
  · cases h

theorem folding_EMInv (gm gm' : GraphMap) (hinv : EMInv gm.edge_map)
    (h : GraphMap.folding gm = some gm') : EMInv gm'.edge_map := by
  rw [GraphMap.folding] at h
  split at h
  · cases h
  · exact foldLoop_EMInv _ _ _ _ (phaseA_EMInv _ _ hinv) h

/-- Claim C1: after every public mutation of the edge map — the dict built
by `set_edge_map`, construction, composition (`__mul__` and
`compose_edge_map`), a successful `tighten`, and a successful `folding` (the
latter starting from a map that already satisfies the invariant, since
`folding` may return its input unchanged) — the inverse-consistency
invariant holds: the stored image of `inv(a)` is the reverse of the stored
image of `a`, and all stored images are reduced. -/
theorem C1_edge_map_invariant :
    (∀ spec, EMInv (setEdgeMapFn spec)) ∧
    (∀ gm spec, EMInv ((GraphMap.set_edge_map gm spec).edge_map)) ∧
    (∀ dom cod spec, EMInv ((GraphMap.mkGM dom cod spec).edge_map)) ∧
    (∀ f g, EMInv ((GraphMap.mul f g).edge_map)) ∧
    (∀ gm m, EMInv ((GraphMap.compose_edge_map gm m).edge_map)) ∧
    (∀ fuel gm gm', GraphMap.tighten fuel gm = some gm' → EMInv gm'.edge_map) ∧
    (∀ gm gm', EMInv gm.edge_map → GraphMap.folding gm = some gm' → EMInv gm'.edge_map) :=
  ⟨fun spec => EMInv_setEdgeMapFn spec,
   fun _ spec => EMInv_setEdgeMapFn spec,
   fun _ _ spec => EMInv_setEdgeMapFn spec,
   fun _ _ => EMInv_setEdgeMapFn _,
   fun _ _ => EMInv_setEdgeMapFn _,
   fun fuel gm gm' h => tighten_EMInv fuel gm gm' h,
   fun gm gm' hinv h => folding_EMInv gm gm' hinv h⟩

/-- Claim C1, witness: the invariant holds on concrete products of each
mutation: a freshly built dict, a composition, a successful `tighten` run,
and a successful `folding` run. -/
theorem C1_witness :
    EMInv (setEdgeMapFn [(Letter.pos 0, [Letter.pos 5, Letter.neg 5, Letter.pos 6])]) ∧
    EMInv ((GraphMap.mul gmCC gmAB).edge_map) ∧
    (GraphMap.tighten 1 gmAB).isSome = true ∧
    EMInv (((GraphMap.tighten 1 gmAB).getD gmAB).edge_map) ∧
    (GraphMap.folding gmCC).isSome = true ∧
    EMInv (((GraphMap.folding gmCC).getD gmCC).edge_map) := by
  refine ⟨C1_edge_map_invariant.1 _, C1_edge_map_invariant.2.2.2.1 gmCC gmAB, rfl, ?_, rfl, ?_⟩
  · exact C1_edge_map_invariant.2.2.2.2.2.1 1 gmAB _ rfl
  · exact C1_edge_map_invariant.2.2.2.2.2.2 gmCC _
      (C1_edge_map_invariant.2.2.1 roseG roseC _) rfl

/-! ## Claim C3: the tighten termination measure -/

/-- Claim C3, counterexample: on a single edge `0 → 1` with the one-letter
image `[c]` (a valid, inverse-consistent, reduced edge map), the first
`tighten` iteration marks "not done" yet leaves the total image length
unchanged (2): the letter's whole image is absorbed as the prefix of the
lone gate at its tail and regrown in reverse at its head.  Consequently the
loop oscillates and does not terminate: fifty iterations still have not
finished. -/
theorem C3_counterexample :
    (stripPass edgeG edgeG.allLetters (pfxPass edgeG edgeG.allLetters em3) em3).2 = false ∧
    totalLen edgeG.allLetters
        (stripPass edgeG edgeG.allLetters (pfxPass edgeG edgeG.allLetters em3) em3).1 =
      totalLen edgeG.allLetters em3 ∧
    (tightenLoop edgeG edgeG.allLetters 50 em3).isNone = true := by
  refine ⟨by decide, by decide, by decide⟩

theorem stripGo_decrease (G : Graph) (letters : List Letter) (pr : Nat → Option Path)
    (em0 : Letter → Path) :
    ∀ (l : List Letter) (cur : Letter → Path) (done : Bool),
      l.Nodup → (∀ b ∈ l, b ∈ letters) →
      (∀ b ∈ l, pLen pr (G.initialVertex b) +
          (if b.bar ∈ l then pLen pr (G.initialVertex b.bar) else 0) < (cur b).length) →
      (done = false → totalLen letters cur < totalLen letters em0) →
      (∀ b, (cur b).length ≤ (em0 b).length) →
      (l.foldl (stripStep G pr) (cur, done)).2 = false →
      totalLen letters (l.foldl (stripStep G pr) (cur, done)).1 < totalLen letters em0 := by
  intro l
  induction l with
  | nil =>
    intro cur done _ _ _ hdf _ hfalse
    simp only [List.foldl_nil] at hfalse ⊢
    exact hdf hfalse
  | cons a rest ih =>
    intro cur done hnd hsub hinvl hdf hle hfalse
    have hanr : a ∉ rest := (List.nodup_cons.mp hnd).1
    have hndr : rest.Nodup := (List.nodup_cons.mp hnd).2
    have hsubr : ∀ b ∈ rest, b ∈ letters := fun b hb => hsub b (List.mem_cons_of_mem a hb)
    rw [List.foldl_cons] at hfalse ⊢
    cases hpr : pr (G.initialVertex a) with
    | none =>
      have hstep : stripStep G pr (cur, done) a = (cur, done) := by
        simp only [stripStep, hpr]
      rw [hstep] at hfalse ⊢
      refine ih cur done hndr hsubr ?_ hdf hle hfalse
      intro b hb
      have h1 := hinvl b (List.mem_cons_of_mem a hb)
      by_cases hbb : b.bar ∈ rest
      · rw [if_pos hbb]
        rwa [if_pos (List.mem_cons_of_mem a hbb)] at h1
      · rw [if_neg hbb]
        have h2 : pLen pr (G.initialVertex b) ≤ pLen pr (G.initialVertex b) +
            (if b.bar ∈ a :: rest then pLen pr (G.initialVertex b.bar) else 0) :=
          Nat.le_add_right _ _
        omega
    | some p =>
      by_cases hp : 0 < p.length
      · have hplen : p.length = pLen pr (G.initialVertex a) := by
          simp [pLen, hpr]
        have hbarne : a ≠ a.bar := fun hc => bar_ne a hc.symm
        have hinva := hinvl a (List.mem_cons_self a rest)
        have hcur : 0 < (cur a).length := by omega
        have hstep : stripStep G pr (cur, done) a =
            (updL (updL cur a ((cur a).drop p.length)) a.bar
              ((cur a.bar).take ((cur a.bar).length - p.length)), false) := by
          simp only [stripStep, hpr, if_pos hp, if_pos hcur]
        set cur' := updL (updL cur a ((cur a).drop p.length)) a.bar
          ((cur a.bar).take ((cur a.bar).length - p.length)) with hcur'
        have hc'a : cur' a = (cur a).drop p.length := by
          rw [hcur']
          simp [updL, hbarne]
        have hc'bar : cur' a.bar = (cur a.bar).take ((cur a.bar).length - p.length) := by
          rw [hcur']
          simp [updL]
        have hc'other : ∀ b, b ≠ a → b ≠ a.bar → cur' b = cur b := by
          intro b h1 h2
          rw [hcur']
          simp [updL, h1, h2]
        have hlena : (cur' a).length = (cur a).length - p.length := by
          rw [hc'a, List.length_drop]
        have hlenbar : (cur' a.bar).length = (cur a.bar).length - p.length := by
          rw [hc'bar, List.length_take]
          omega
        have hmono : ∀ b, (cur' b).length ≤ (cur b).length := by
          intro b
          by_cases h1 : b = a.bar
          · subst h1; omega
          · by_cases h2 : b = a
            · subst h2; omega
            · rw [hc'other b h2 h1]
        have hstrict : totalLen letters cur' < totalLen letters cur := by
          unfold totalLen
          refine List.sum_lt_sum (fun i => (cur' i).length) (fun i => (cur i).length)
            (fun i _ => hmono i) ⟨a, hsub a (List.mem_cons_self a rest), ?_⟩
          show (cur' a).length < (cur a).length
          omega
        rw [hstep] at hfalse ⊢
        refine ih cur' false hndr hsubr ?_ (fun _ => ?_) (fun b => le_trans (hmono b) (hle b))
          hfalse
        · intro b hb
          by_cases h1 : b = a.bar
          · subst h1
            have h2 := hinvl a.bar (List.mem_cons_of_mem a hb)
            rw [bar_bar] at h2
            rw [if_pos (List.mem_cons_self a rest)] at h2
            have h3 : a.bar.bar ∉ rest := by rwa [bar_bar]
            rw [if_neg h3]
            omega
          · have h2 : b ≠ a := fun hc => hanr (hc ▸ hb)
            rw [hc'other b h2 h1]
            have h3 := hinvl b (List.mem_cons_of_mem a hb)
            by_cases hbb : b.bar ∈ rest
            · rw [if_pos hbb]
              rwa [if_pos (List.mem_cons_of_mem a hbb)] at h3
            · rw [if_neg hbb]
              have h4 : pLen pr (G.initialVertex b) ≤ pLen pr (G.initialVertex b) +
                  (if b.bar ∈ a :: rest then pLen pr (G.initialVertex b.bar) else 0) :=
                Nat.le_add_right _ _
              omega
        · cases done with
          | true =>
            calc totalLen letters cur' < totalLen letters cur := hstrict
              _ ≤ totalLen letters em0 := by
                unfold totalLen
                exact List.sum_le_sum (fun i _ => hle i)
          | false => exact lt_trans hstrict (hdf rfl)
      · have hstep : stripStep G pr (cur, done) a = (cur, done) := by
          simp only [stripStep, hpr, if_neg hp]
        rw [hstep] at hfalse ⊢
        refine ih cur done hndr hsubr ?_ hdf hle hfalse
        intro b hb
        have h1 := hinvl b (List.mem_cons_of_mem a hb)
        by_cases hbb : b.bar ∈ rest
        · rw [if_pos hbb]
          rwa [if_pos (List.mem_cons_of_mem a hbb)] at h1
        · rw [if_neg hbb]
          have h2 : pLen pr (G.initialVertex b) ≤ pLen pr (G.initialVertex b) +
              (if b.bar ∈ a :: rest then pLen pr (G.initialVertex b.bar) else 0) :=
            Nat.le_add_right _ _
          omega

/-- Claim C3, amended: an iteration that marks "not done" strictly decreases
the total image length provided every letter's image is strictly longer than
the combined prefix lengths at its two endpoints (so the iteration never
takes the branch that regrows an emptied image).  Without that proviso a
not-done iteration can leave the total unchanged, and the loop need not
terminate (see the counterexample). -/
theorem C3_amended (G : Graph) (letters : List Letter) (em : Letter → Path)
    (hnd : letters.Nodup)
    (hmargin : ∀ b ∈ letters, pLen (pfxPass G letters em) (G.initialVertex b) +
      pLen (pfxPass G letters em) (G.initialVertex b.bar) < (em b).length)
    (hout : (stripPass G letters (pfxPass G letters em) em).2 = false) :
    totalLen letters (stripPass G letters (pfxPass G letters em) em).1 <
      totalLen letters em := by
  refine stripGo_decrease G letters (pfxPass G letters em) em letters em true hnd
    (fun b hb => hb) ?_ (fun h => absurd h (by simp)) (fun b => le_refl _) hout
  intro b hb
  have h1 := hmargin b hb
  by_cases hbb : b.bar ∈ letters
  · rwa [if_pos hbb]
  · rw [if_neg hbb]
    omega

/-- Claim C3, witness for the amended statement: two parallel edges with
images `[c,d]` and `[c,e]` strip the shared prefix `[c]` and the total
length drops from 8 to 4. -/
theorem C3_amended_witness :
    totalLen g3w.allLetters
        (stripPass g3w g3w.allLetters (pfxPass g3w g3w.allLetters em3w) em3w).1 <
      totalLen g3w.allLetters em3w :=
  C3_amended g3w g3w.allLetters em3w (by decide) (by decide) (by decide)

/-! ## Claim C4: idempotence of `tighten` at its fixed point -/

theorem stripStep_keeps_false (G : Graph) (pr : Nat → Option Path)
    (s : (Letter → Path) × Bool) (a : Letter) (h : s.2 = false) :
    (stripStep G pr s a).2 = false := by
  cases hpr : pr (G.initialVertex a) with
  | none => simp only [stripStep, hpr]; exact h
  | some p =>
    by_cases hp : 0 < p.length
    · by_cases hc : 0 < (s.1 a).length
      · simp only [stripStep, hpr, if_pos hp, if_pos hc]
      · simp only [stripStep, hpr, if_pos hp, if_neg hc]
    · simp only [stripStep, hpr, if_neg hp]
      exact h

theorem stripGo_false (G : Graph) (pr : Nat → Option Path) :
    ∀ (l : List Letter) (s : (Letter → Path) × Bool), s.2 = false →
      (l.foldl (stripStep G pr) s).2 = false := by
  intro l
  induction l with
  | nil => intro s h; exact h
  | cons a rest ih =>
    intro s h
    rw [List.foldl_cons]
    exact ih _ (stripStep_keeps_false G pr s a h)

theorem stripGo_done (G : Graph) (pr : Nat → Option Path) :
    ∀ (l : List Letter) (s : (Letter → Path) × Bool),
      (l.foldl (stripStep G pr) s).2 = true →
      l.foldl (stripStep G pr) s = s ∧
      ∀ a ∈ l, pr (G.initialVertex a) = none ∨ pr (G.initialVertex a) = some [] := by
  intro l
  induction l with
  | nil => intro s _; exact ⟨rfl, by simp⟩
  | cons a rest ih =>
    intro s hdone
    rw [List.foldl_cons] at hdone ⊢
    cases hpr : pr (G.initialVertex a) with
    | none =>
      have hstep : stripStep G pr s a = s := by
        simp only [stripStep, hpr]
      rw [hstep] at hdone ⊢
      obtain ⟨h1, h2⟩ := ih s hdone
      exact ⟨h1, by
        intro b hb
        rcases List.mem_cons.mp hb with hb | hb
        · subst hb; exact Or.inl hpr
        · exact h2 b hb⟩
    | some p =>
      by_cases hp : 0 < p.length
      · exfalso
        have hstep : (stripStep G pr s a).2 = false := by
          by_cases hc : 0 < (s.1 a).length
          · simp only [stripStep, hpr, if_pos hp, if_pos hc]
          · simp only [stripStep, hpr, if_pos hp, if_neg hc]
        have : (stripStep G pr s a) = ((stripStep G pr s a).1, false) := by
          rw [← hstep]
        rw [this] at hdone
        rw [stripGo_false G pr rest _ rfl] at hdone
        cases hdone
      · have hpnil : p = [] := List.length_eq_zero.mp (by omega)
        have hstep : stripStep G pr s a = s := by
          simp only [stripStep, hpr, if_neg hp]
        rw [hstep] at hdone ⊢
        obtain ⟨h1, h2⟩ := ih s hdone
        exact ⟨h1, by
          intro b hb
          rcases List.mem_cons.mp hb with hb | hb
          · subst hb; exact Or.inr (by rw [hpr, hpnil])
          · exact h2 b hb⟩

theorem stripGo_skip (G : Graph) (pr : Nat → Option Path) :
    ∀ (l : List Letter) (s : (Letter → Path) × Bool),
      (∀ a ∈ l, pr (G.initialVertex a) = none ∨ pr (G.initialVertex a) = some []) →
      l.foldl (stripStep G pr) s = s := by
  intro l
  induction l with
  | nil => intro s _; rfl
  | cons a rest ih =>
    intro s hskip
    rw [List.foldl_cons]
    have hstep : stripStep G pr s a = s := by
      rcases hskip a (List.mem_cons_self a rest) with h | h
      · simp only [stripStep, h]
      · simp only [stripStep, h]
        simp
    rw [hstep]
    exact ih s (fun b hb => hskip b (List.mem_cons_of_mem a hb))

theorem tightenLoop_last (G : Graph) (letters : List Letter) :
    ∀ (fuel : Nat) (em em' : Letter → Path),
      tightenLoop G letters fuel em = some em' →
      (stripPass G letters (pfxPass G letters em') em').2 = true := by
  intro fuel
  induction fuel with
  | zero => intro em em' h; cases h
  | succ n ih =>
    intro em em' h
    rw [tightenLoop] at h
    split at h
    · cases h
      assumption
    · exact ih _ _ h

theorem tightenLoop_exit (G : Graph) (letters : List Letter) (fuel : Nat)
    (em : Letter → Path)
    (h : (stripPass G letters (pfxPass G letters em) em).2 = true) :
    tightenLoop G letters (fuel + 1) em = some em := by
  rw [tightenLoop, if_pos h]

theorem pfxStep_ne (G : Graph) (em : Letter → Path) (pr : Nat → Option Path)
    (a : Letter) (v : Nat) (h : v ≠ G.initialVertex a) :
    pfxStep G em pr a v = pr v := by
  rw [pfxStep]
  by_cases h1 : 0 < (em a).length
  · rw [if_pos h1]
    cases hpr : pr (G.initialVertex a) with
    | none => simp [upd, h]
    | some q =>
      by_cases h2 : 0 < q.length
      · simp [if_pos h2, upd, h]
      · simp [if_neg h2]
  · rw [if_neg h1]

theorem pfxGo_support (G : Graph) (em : Letter → Path) :
    ∀ (l : List Letter) (pr : Nat → Option Path) (v : Nat),
      (l.foldl (pfxStep G em) pr) v ≠ pr v → ∃ a ∈ l, G.initialVertex a = v := by
  intro l
  induction l with
  | nil => intro pr v h; exact absurd rfl h
  | cons a rest ih =>
    intro pr v h
    rw [List.foldl_cons] at h
    by_cases h2 : (rest.foldl (pfxStep G em) (pfxStep G em pr a)) v = (pfxStep G em pr a) v
    · rw [h2] at h
      by_cases h3 : v = G.initialVertex a
      · exact ⟨a, List.mem_cons_self a rest, h3.symm⟩
      · exact absurd (pfxStep_ne G em pr a v h3) h
    · obtain ⟨b, hb, hv⟩ := ih _ v h2
      exact ⟨b, List.mem_cons_of_mem a hb, hv⟩

theorem pfxGo_congr (G : Graph) (em1 em2 : Letter → Path) :
    ∀ (l : List Letter), (∀ a ∈ l, em1 a = em2 a) →
      ∀ (pr : Nat → Option Path),
        l.foldl (pfxStep G em1) pr = l.foldl (pfxStep G em2) pr := by
  intro l
  induction l with
  | nil => intro _ pr; rfl
  | cons a rest ih =>
    intro h pr
    rw [List.foldl_cons, List.foldl_cons]
    have hstep : pfxStep G em1 pr a = pfxStep G em2 pr a := by
      rw [pfxStep, pfxStep, h a (List.mem_cons_self a rest)]
    rw [hstep]
    exact ih (fun b hb => h b (List.mem_cons_of_mem a hb)) _

theorem pfxGo_reduced (G : Graph) (em : Letter → Path) (hred : reducedAll em) :
    ∀ (l : List Letter) (pr : Nat → Option Path),
      (∀ v p, pr v = some p → reducedB p = true) →
      ∀ v p, (l.foldl (pfxStep G em) pr) v = some p → reducedB p = true := by
  intro l
  induction l with
  | nil => intro pr hpr v p h; exact hpr v p h
  | cons a rest ih =>
    intro pr hpr v p h
    rw [List.foldl_cons] at h
    refine ih _ ?_ v p h
    intro u q hq
    by_cases h1 : 0 < (em a).length
    · cases hpr2 : pr (G.initialVertex a) with
      | none =>
        simp only [pfxStep, if_pos h1, hpr2, upd] at hq
        by_cases h3 : u = G.initialVertex a
        · rw [if_pos h3] at hq
          cases hq
          exact hred a
        · rw [if_neg h3] at hq
          exact hpr u q hq
      | some q0 =>
        by_cases h2 : 0 < q0.length
        · simp only [pfxStep, if_pos h1, hpr2, if_pos h2, upd] at hq
          by_cases h3 : u = G.initialVertex a
          · rw [if_pos h3] at hq
            cases hq
            exact reducedB_take (hpr _ _ hpr2) _
          · rw [if_neg h3] at hq
            exact hpr u q hq
        · simp only [pfxStep, if_pos h1, hpr2, if_neg h2] at hq
          exact hpr u q hq
    · simp only [pfxStep, if_neg h1] at hq
      exact hpr u q hq

theorem updL_same {β : Type} (f : Letter → β) (k : Letter) (x : β) : updL f k x k = x := by
  simp [updL]

theorem updL_other {β : Type} (f : Letter → β) (k : Letter) (x : β) (b : Letter)
    (h : b ≠ k) : updL f k x b = f b := by
  simp [updL, h]

theorem stripStep_preserves (G : Graph) (pr : Nat → Option Path)
    (hpr : ∀ v p, pr v = some p → reducedB p = true)
    (s : (Letter → Path) × Bool) (a : Letter)
    (hc : consistentAll s.1) (hr : reducedAll s.1) :
    consistentAll (stripStep G pr s a).1 ∧ reducedAll (stripStep G pr s a).1 := by
  cases hpr2 : pr (G.initialVertex a) with
  | none =>
    have hstep : stripStep G pr s a = s := by simp only [stripStep, hpr2]
    rw [hstep]
    exact ⟨hc, hr⟩
  | some p =>
    by_cases hp : 0 < p.length
    · have hpred : reducedB p = true := hpr _ _ hpr2
      have hbarne : a ≠ a.bar := fun hcon => bar_ne a hcon.symm
      by_cases hlen : 0 < (s.1 a).length
      · have hstep : (stripStep G pr s a).1 =
            updL (updL s.1 a ((s.1 a).drop p.length)) a.bar
              ((s.1 a.bar).take ((s.1 a.bar).length - p.length)) := by
          simp only [stripStep, hpr2, if_pos hp, if_pos hlen]
        rw [hstep]
        have hval : (s.1 a.bar).take ((s.1 a.bar).length - p.length) =
            reversePath ((s.1 a).drop p.length) := by
          rw [hc a, length_reversePath, reversePath_drop]
        constructor
        · intro b
          by_cases h1 : b = a
          · subst h1
            rw [updL_same, updL_other _ _ _ _ hbarne, updL_same]
            exact hval
          · by_cases h2 : b = a.bar
            · subst h2
              rw [bar_bar, updL_other _ _ _ _ hbarne, updL_same, updL_same]
              rw [hval, reversePath_reversePath]
            · have h3 : b.bar ≠ a.bar := fun hcon => h1 (bar_inj hcon)
              have h4 : b.bar ≠ a := fun hcon => h2 (by rw [← hcon, bar_bar])
              rw [updL_other _ _ _ _ h3, updL_other _ _ _ _ h4,
                updL_other _ _ _ _ h2, updL_other _ _ _ _ h1]
              exact hc b
        · intro b
          by_cases h1 : b = a.bar
          · subst h1
            rw [updL_same]
            exact reducedB_take (hr _) _
          · by_cases h2 : b = a
            · subst h2
              rw [updL_other _ _ _ _ hbarne, updL_same]
              exact reducedB_drop (hr _) _
            · rw [updL_other _ _ _ _ h1, updL_other _ _ _ _ h2]
              exact hr b
      · have hstep : (stripStep G pr s a).1 =
            updL (updL s.1 a (reversePath p)) a.bar p := by
          simp only [stripStep, hpr2, if_pos hp, if_neg hlen]
        rw [hstep]
        constructor
        · intro b
          by_cases h1 : b = a
          · subst h1
            rw [updL_same, updL_other _ _ _ _ hbarne, updL_same, reversePath_reversePath]
          · by_cases h2 : b = a.bar
            · subst h2
              rw [bar_bar, updL_other _ _ _ _ hbarne, updL_same, updL_same]
            · have h3 : b.bar ≠ a.bar := fun hcon => h1 (bar_inj hcon)
              have h4 : b.bar ≠ a := fun hcon => h2 (by rw [← hcon, bar_bar])
              rw [updL_other _ _ _ _ h3, updL_other _ _ _ _ h4,
                updL_other _ _ _ _ h2, updL_other _ _ _ _ h1]
              exact hc b
        · intro b
          by_cases h1 : b = a.bar
          · subst h1
            rw [updL_same]
            exact hpred
          · by_cases h2 : b = a
            · subst h2
              rw [updL_other _ _ _ _ hbarne, updL_same]
              exact reducedB_reversePath hpred
            · rw [updL_other _ _ _ _ h1, updL_other _ _ _ _ h2]
              exact hr b
    · have hstep : stripStep G pr s a = s := by
        simp only [stripStep, hpr2, if_neg hp]
      rw [hstep]
      exact ⟨hc, hr⟩

theorem stripGo_preserves (G : Graph) (pr : Nat → Option Path)
    (hpr : ∀ v p, pr v = some p → reducedB p = true) :
    ∀ (l : List Letter) (s : (Letter → Path) × Bool),
      consistentAll s.1 → reducedAll s.1 →
      consistentAll (l.foldl (stripStep G pr) s).1 ∧
        reducedAll (l.foldl (stripStep G pr) s).1 := by
  intro l
  induction l with
  | nil => intro s hc hr; exact ⟨hc, hr⟩
  | cons a rest ih =>
    intro s hc hr
    rw [List.foldl_cons]
    obtain ⟨hc', hr'⟩ := stripStep_preserves G pr hpr s a hc hr
    exact ih _ hc' hr'

theorem tightenLoop_preserves (G : Graph) (letters : List Letter) :
    ∀ (fuel : Nat) (em em' : Letter → Path),
      consistentAll em → reducedAll em →
      tightenLoop G letters fuel em = some em' →
      consistentAll em' ∧ reducedAll em' := by
  intro fuel
  induction fuel with
  | zero => intro em em' _ _ h; cases h
  | succ n ih =>
    intro em em' hc hr h
    rw [tightenLoop] at h
    split at h
    · cases h
      exact ⟨hc, hr⟩
    · have hpr : ∀ v p, pfxPass G letters em v = some p → reducedB p = true :=
        pfxGo_reduced G em hr letters (fun _ => none) (by intro v p h2; cases h2)
      obtain ⟨hc', hr'⟩ := stripGo_preserves G (pfxPass G letters em) hpr letters
        (em, true) hc hr
      exact ih _ _ hc' hr' h

theorem EMInv_to_total (m : Letter → Option Path) (h : EMInv m) :
    consistentAll (fun a => img m a) ∧ reducedAll (fun a => img m a) := by
  constructor
  · intro b
    show img m b.bar = reversePath (img m b)
    rw [img, img, (h b).1]
    cases m b with
    | none => rfl
    | some w => rfl
  · intro b
    show reducedB (img m b) = true
    rw [img]
    cases hm : m b with
    | none => rfl
    | some w => exact (h b).2 w hm

theorem setEdgeMapFn_map_self (letters : List Letter) (em : Letter → Path)
    (hcons : consistentAll em) (hred : reducedAll em) (b : Letter) (hb : b ∈ letters) :
    setEdgeMapFn (letters.map (fun a => (a, em a))) b = some (em b) := by
  rw [setEdgeMapFn_eq]
  have hsome : ((letters.map (fun a => (a, em a))).reverse.find?
      (fun q => decide (b = q.1) || decide (b = q.1.bar))).isSome = true := by
    rw [List.find?_isSome]
    exact ⟨(b, em b), by
      rw [List.mem_reverse]
      exact ⟨List.mem_map_of_mem _ hb, by simp⟩⟩
  obtain ⟨q, hq⟩ := Option.isSome_iff_exists.mp hsome
  rw [hq]
  have hmem := List.mem_of_find?_eq_some hq
  rw [List.mem_reverse] at hmem
  obtain ⟨c, _, hcq⟩ := List.mem_map.mp hmem
  have hpred := List.find?_some hq
  simp only [Bool.or_eq_true, decide_eq_true_iff] at hpred
  subst hcq
  show (if b = c.bar then some (reversePath (reducePath (em c)))
      else some (reducePath (em c))) = some (em b)
  rcases hpred with hpred | hpred
  · have hb2 : b = c := hpred
    have h1 : ¬b = c.bar := by
      rw [hb2]
      exact fun hcon => bar_ne c hcon.symm
    rw [if_neg h1, reducePath_eq_self (hred c), hb2]
  · have hb2 : b = c.bar := hpred
    rw [if_pos hb2, reducePath_eq_self (hred c), ← hcons c, hb2]

/-- Claim C4: once `tighten` returns, the fixed point is genuine — no vertex
of the domain carries a nonempty common prefix shared by the images of all
its outgoing letters with nonempty image — and running `tighten` a second
time returns the very same `GraphMap`, leaving the edge map unchanged. -/
theorem C4_tighten_idempotent (gm gm' : GraphMap) (fuel fuel' : Nat)
    (hinv : EMInv gm.edge_map)
    (h : GraphMap.tighten fuel gm = some gm') :
    (∀ v p, pfxPass gm'.domain gm'.domain.allLetters (fun a => img gm'.edge_map a) v =
      some p → p = []) ∧
    GraphMap.tighten (fuel' + 1) gm' = some gm' := by
  rw [GraphMap.tighten] at h
  split at h
  case isFalse => cases h
  case isTrue hT =>
    rcases Option.map_eq_some'.mp h with ⟨em', hloop, hgm⟩
    have h0 := EMInv_to_total gm.edge_map hinv
    obtain ⟨hcons, hred⟩ := tightenLoop_preserves gm.domain gm.domain.allLetters fuel _ em'
      h0.1 h0.2 hloop
    have hdone := tightenLoop_last gm.domain gm.domain.allLetters fuel _ em' hloop
    have hskip := (stripGo_done gm.domain (pfxPass gm.domain gm.domain.allLetters em')
      gm.domain.allLetters (em', true) hdone).2
    have hK : ∀ b ∈ gm.domain.allLetters, gm'.edge_map b = some (em' b) := by
      intro b hb
      rw [← hgm]
      exact setEdgeMapFn_map_self gm.domain.allLetters em' hcons hred b hb
    have hK2 : ∀ b ∈ gm.domain.allLetters, img gm'.edge_map b = em' b := by
      intro b hb
      rw [img, hK b hb]
      rfl
    have hDom : gm'.domain = gm.domain := by rw [← hgm]; rfl
    have hCong : pfxPass gm.domain gm.domain.allLetters (fun a => img gm'.edge_map a) =
        pfxPass gm.domain gm.domain.allLetters em' :=
      pfxGo_congr gm.domain (fun a => img gm'.edge_map a) em' gm.domain.allLetters hK2 _
    constructor
    · intro v p hp
      rw [hDom] at hp
      rw [hCong] at hp
      by_contra hne
      obtain ⟨a, ha, hav⟩ := pfxGo_support gm.domain em' gm.domain.allLetters
        (fun _ => none) v (by
          show pfxPass gm.domain gm.domain.allLetters em' v ≠ none
          rw [hp]
          exact fun hcon => by cases hcon)
      rcases hskip a ha with hcon | hcon <;> rw [hav] at hcon <;> rw [hcon] at hp
      · cases hp
      · cases hp
        exact hne rfl
    · rw [GraphMap.tighten]
      have hT2 : gm'.domain.allLetters.all (fun a => (gm'.edge_map a).isSome) = true := by
        rw [hDom]
        rw [List.all_eq_true]
        intro a ha
        rw [hK a ha]
        rfl
      rw [if_pos hT2]
      have hPass : (stripPass gm'.domain gm'.domain.allLetters
          (pfxPass gm'.domain gm'.domain.allLetters (fun a => img gm'.edge_map a))
          (fun a => img gm'.edge_map a)).2 = true := by
        rw [hDom, hCong]
        rw [stripPass, stripGo_skip gm.domain (pfxPass gm.domain gm.domain.allLetters em')
          gm.domain.allLetters _ hskip]
      rw [tightenLoop_exit gm'.domain gm'.domain.allLetters fuel' _ hPass]
      show some (gm'.set_edge_map
        (gm'.domain.allLetters.map (fun a => (a, img gm'.edge_map a)))) = some gm'
      congr 1
      have hSpec : gm'.domain.allLetters.map (fun a => (a, img gm'.edge_map a)) =
          gm.domain.allLetters.map (fun a => (a, em' a)) := by
        rw [hDom]
        exact List.map_congr_left (fun a ha => by rw [hK2 a ha])
      rw [GraphMap.set_edge_map, hSpec, ← hgm]
      rfl

/-- Claim C4, witness: `tighten` on the scenario `a ↦ ab`, `b ↦ b` returns a
fixed point; a second run returns it unchanged. -/
theorem C4_witness :
    GraphMap.tighten 1 ((GraphMap.tighten 2 gmAB).getD gmAB) =
      some ((GraphMap.tighten 2 gmAB).getD gmAB) :=
  (C4_tighten_idempotent gmAB ((GraphMap.tighten 2 gmAB).getD gmAB) 2 0
    (EMInv_setEdgeMapFn _) rfl).2

/-! ## Helper lemmas for subdivision and folding -/

theorem upd_same {β : Type} (f : Nat → β) (k : Nat) (x : β) : upd f k x k = x := by
  simp [upd]

theorem upd_other {β : Type} (f : Nat → β) (k : Nat) (x : β) (v : Nat)
    (h : v ≠ k) : upd f k x v = f v := by
  simp [upd, h]

theorem maxList_mem_le (l : List Nat) (x : Nat) (h : x ∈ l) : x ≤ maxList l := by
  induction l with
  | nil => cases h
  | cons y ys ih =>
    rcases List.mem_cons.mp h with h | h
    · subst h
      exact le_max_left _ _
    · exact le_trans (ih h) (le_max_right _ _)

theorem freshIds_not_mem (G : Graph) (n j : Nat) (h : j ∈ G.freshIds n) : j ∉ G.pos := by
  intro hc
  rw [Graph.freshIds] at h
  obtain ⟨k, _, hk⟩ := List.mem_map.mp h
  have := maxList_mem_le G.pos j hc
  omega

theorem freshIds_nodup (G : Graph) (n : Nat) : (G.freshIds n).Nodup :=
  List.Nodup.map (fun x y hxy => by omega) (List.nodup_range n)

theorem freshIds_length (G : Graph) (n : Nat) : (G.freshIds n).length = n := by
  simp [Graph.freshIds]

theorem freshVertices_not_mem (G : Graph) (n j : Nat) (h : j ∈ G.freshVertices n) :
    j ∉ G.vertices := by
  intro hc
  rw [Graph.freshVertices] at h
  obtain ⟨k, _, hk⟩ := List.mem_map.mp h
  have := maxList_mem_le G.vertices j hc
  omega

theorem map_getD_range : ∀ (l : List Nat),
    (List.range l.length).map (fun i => l.getD i 0) = l
  | [] => rfl
  | x :: xs => by
    rw [List.length_cons, List.range_succ_eq_map, List.map_cons, List.map_map]
    congr 1
    have h : ∀ i ∈ List.range xs.length,
        ((fun i => (x :: xs).getD i 0) ∘ Nat.succ) i = xs.getD i 0 := fun i _ => rfl
    rw [List.map_congr_left h]
    exact map_getD_range xs

theorem filter_length_lt {α : Type} (p : α → Bool) (l : List α) (a : α)
    (ha : a ∈ l) (hpa : p a = false) : (l.filter p).length < l.length := by
  induction l with
  | nil => cases ha
  | cons x xs ih =>
    rcases List.mem_cons.mp ha with h | h
    · subst h
      rw [List.filter_cons, hpa]
      exact Nat.lt_succ_of_le (List.length_filter_le p xs)
    · rw [List.filter_cons]
      cases hx : p x with
      | true =>
        simp only [List.length_cons]
        exact Nat.succ_lt_succ (ih h)
      | false =>
        exact Nat.lt_succ_of_lt (ih h)

theorem pos_index_mem {G : Graph} {b : Letter} (h : b ∈ G.allLetters) :
    b.index ∈ G.pos := by
  rw [Graph.allLetters] at h
  rcases List.mem_append.mp h with h | h <;> obtain ⟨j, hj, hbj⟩ := List.mem_map.mp h <;>
    subst hbj <;> exact hj

theorem mem_allLetters_pos {G : Graph} {j : Nat} (h : j ∈ G.pos) :
    Letter.pos j ∈ G.allLetters :=
  List.mem_append.mpr (Or.inl (List.mem_map_of_mem _ h))

theorem mem_allLetters_neg {G : Graph} {j : Nat} (h : j ∈ G.pos) :
    Letter.neg j ∈ G.allLetters :=
  List.mem_append.mpr (Or.inr (List.mem_map_of_mem _ h))

theorem bar_mem_allLetters {G : Graph} {b : Letter} (h : b ∈ G.allLetters) :
    b.bar ∈ G.allLetters := by
  cases b with
  | pos j => exact mem_allLetters_neg (pos_index_mem h)
  | neg j => exact mem_allLetters_pos (pos_index_mem h)

theorem allLetters_nodup (G : Graph) (h : G.pos.Nodup) : G.allLetters.Nodup := by
  refine List.Nodup.append (List.Nodup.map (fun x y hxy => by cases hxy; rfl) h)
    (List.Nodup.map (fun x y hxy => by cases hxy; rfl) h) ?_
  intro b hb1 hb2
  obtain ⟨j, _, hj⟩ := List.mem_map.mp hb1
  obtain ⟨k, _, hk⟩ := List.mem_map.mp hb2
  rw [← hj] at hk
  cases hk

theorem mem_pairsAux : ∀ (l : List Letter) (u : Letter × Letter), u ∈ pairsAux l →
    u.1 ∈ l ∧ u.2 ∈ l := by
  intro l
  induction l with
  | nil => intro u h; cases h
  | cons a rest ih =>
    intro u h
    rw [pairsAux] at h
    rcases List.mem_append.mp h with h | h
    · obtain ⟨b, hb, hu⟩ := List.mem_map.mp h
      subst hu
      exact ⟨List.mem_cons_self a rest, List.mem_cons_of_mem a hb⟩
    · obtain ⟨h1, h2⟩ := ih u h
      exact ⟨List.mem_cons_of_mem a h1, List.mem_cons_of_mem a h2⟩

theorem mem_pairsAux_ne : ∀ (l : List Letter), l.Nodup →
    ∀ u ∈ pairsAux l, u.1 ≠ u.2 := by
  intro l
  induction l with
  | nil => intro _ u h; cases h
  | cons a rest ih =>
    intro hnd u h
    rw [pairsAux] at h
    rcases List.mem_append.mp h with h | h
    · obtain ⟨b, hb, hu⟩ := List.mem_map.mp h
      subst hu
      intro hc
      have hab : a = b := hc
      exact (List.nodup_cons.mp hnd).1 (by rw [hab]; exact hb)
    · exact ih (List.nodup_cons.mp hnd).2 u h

theorem mem_turns {G : Graph} {u : Letter × Letter} (h : u ∈ G.turns) :
    u.1 ∈ G.allLetters ∧ u.2 ∈ G.allLetters ∧
      G.initialVertex u.1 = G.initialVertex u.2 := by
  rw [Graph.turns] at h
  have h1 := List.of_mem_filter h
  have h2 := mem_pairsAux _ u (List.mem_of_mem_filter h)
  exact ⟨h2.1, h2.2, by simpa using h1⟩

theorem mem_turns_ne {G : Graph} (hnd : G.pos.Nodup) {u : Letter × Letter}
    (h : u ∈ G.turns) : u.1 ≠ u.2 :=
  mem_pairsAux_ne _ (allLetters_nodup G hnd) u (List.mem_of_mem_filter h)

theorem illegalTurns_mem (em : Letter → Option Path) :
    ∀ (l r : List (Letter × Letter)), illegalTurns em l = some r →
      ∀ u ∈ r, u ∈ l ∧ ∃ x, (em u.1).bind List.head? = some x ∧
        (em u.2).bind List.head? = some x := by
  intro l
  induction l with
  | nil =>
    intro r h u hu
    cases h
    cases hu
  | cons t ts ih =>
    intro r h u hu
    rw [illegalTurns] at h
    rcases hx : (em t.1).bind List.head? with _ | x <;> rw [hx] at h
    · cases h
    · rcases hy : (em t.2).bind List.head? with _ | y <;> rw [hy] at h
      · cases h
      · rcases hr : illegalTurns em ts with _ | r0 <;> rw [hr] at h
        · cases h
        · cases h
          by_cases hxy : x = y
          · rw [if_pos hxy] at hu
            rcases List.mem_cons.mp hu with hu | hu
            · rw [hu]
              exact ⟨List.mem_cons_self t ts, x, hx, by rw [hy, hxy]⟩
            · obtain ⟨h1, h2⟩ := ih r0 hr u hu
              exact ⟨List.mem_cons_of_mem t h1, h2⟩
          · rw [if_neg hxy] at hu
            obtain ⟨h1, h2⟩ := ih r0 hr u hu
            exact ⟨List.mem_cons_of_mem t h1, h2⟩

theorem illegalTurns_total (em : Letter → Option Path) :
    ∀ (l : List (Letter × Letter)),
      (∀ u ∈ l, ((em u.1).bind List.head?).isSome = true ∧
        ((em u.2).bind List.head?).isSome = true) →
      (illegalTurns em l).isSome = true := by
  intro l
  induction l with
  | nil => intro _; rfl
  | cons t ts ih =>
    intro h
    obtain ⟨x, hx⟩ := Option.isSome_iff_exists.mp (h t (List.mem_cons_self t ts)).1
    obtain ⟨y, hy⟩ := Option.isSome_iff_exists.mp (h t (List.mem_cons_self t ts)).2
    have hts := ih (fun u hu => h u (List.mem_cons_of_mem t hu))
    obtain ⟨r, hr⟩ := Option.isSome_iff_exists.mp hts
    rw [illegalTurns, hx, hy, hr]
    rfl

theorem setEdgeMapFn_posKeys (spec : List (Letter × Path))
    (hpos : ∀ q ∈ spec, ∃ j, q.1 = Letter.pos j)
    (hnd : (spec.map (fun q => q.1)).Nodup) (j : Nat) (w : Path)
    (hmem : (Letter.pos j, w) ∈ spec) :
    setEdgeMapFn spec (Letter.pos j) = some (reducePath w) ∧
    setEdgeMapFn spec (Letter.neg j) = some (reversePath (reducePath w)) := by
  have huniq : ∀ q ∈ spec, (Letter.pos j = q.1 ∨ Letter.pos j = q.1.bar ∨
      Letter.neg j = q.1 ∨ Letter.neg j = q.1.bar) → q = (Letter.pos j, w) := by
    intro q hq hcase
    obtain ⟨j', hj'⟩ := hpos q hq
    have hq1 : q.1 = Letter.pos j := by
      rcases hcase with hc | hc | hc | hc
      · exact hc.symm
      · rw [hj'] at hc; cases hc
      · rw [hj'] at hc; cases hc
      · rw [hj'] at hc
        cases hc
        rw [hj']
    exact List.inj_on_of_nodup_map hnd hq hmem hq1
  constructor
  · rw [setEdgeMapFn_eq]
    have hsome : ((spec.reverse.find?
        (fun q => decide (Letter.pos j = q.1) || decide (Letter.pos j = q.1.bar)))).isSome
        = true := by
      rw [List.find?_isSome]
      exact ⟨(Letter.pos j, w), List.mem_reverse.mpr hmem, by simp⟩
    obtain ⟨q, hq⟩ := Option.isSome_iff_exists.mp hsome
    have hqmem := List.mem_reverse.mp (List.mem_of_find?_eq_some hq)
    have hqpred := List.find?_some hq
    simp only [Bool.or_eq_true, decide_eq_true_iff] at hqpred
    have hqeq : q = (Letter.pos j, w) :=
      huniq q hqmem (by rcases hqpred with h | h; exacts [Or.inl h, Or.inr (Or.inl h)])
    subst hqeq
    rw [hq]
    show (if Letter.pos j = Letter.bar (Letter.pos j) then
      some (reversePath (reducePath w)) else some (reducePath w)) = some (reducePath w)
    rw [if_neg (fun hc => bar_ne (Letter.pos j) hc.symm)]
  · rw [setEdgeMapFn_eq]
    have hsome : ((spec.reverse.find?
        (fun q => decide (Letter.neg j = q.1) || decide (Letter.neg j = q.1.bar)))).isSome
        = true := by
      rw [List.find?_isSome]
      exact ⟨(Letter.pos j, w), List.mem_reverse.mpr hmem, by simp [Letter.bar]⟩
    obtain ⟨q, hq⟩ := Option.isSome_iff_exists.mp hsome
    have hqmem := List.mem_reverse.mp (List.mem_of_find?_eq_some hq)
    have hqpred := List.find?_some hq
    simp only [Bool.or_eq_true, decide_eq_true_iff] at hqpred
    have hqeq : q = (Letter.pos j, w) :=
      huniq q hqmem
        (by rcases hqpred with h | h; exacts [Or.inr (Or.inr (Or.inl h)),
          Or.inr (Or.inr (Or.inr h))])
    subst hqeq
    rw [hq]
    show (if Letter.neg j = Letter.bar (Letter.pos j) then
      some (reversePath (reducePath w)) else some (reducePath w)) =
      some (reversePath (reducePath w))
    rw [if_pos (show Letter.neg j = Letter.bar (Letter.pos j) from rfl)]

theorem setTerminalVertex_pos (G : Graph) (e : Letter) (v : Nat) :
    (G.setTerminalVertex e v).pos = G.pos := by
  cases e <;> rfl

theorem setTerminalVertex_vertices (G : Graph) (e : Letter) (v : Nat) :
    (G.setTerminalVertex e v).vertices = G.vertices := by
  cases e <;> rfl

theorem addEdge_pos (G : Graph) (vi vt i : Nat) :
    (G.addEdge vi vt i).pos = G.pos ++ [i] := rfl

theorem addEdge_vertices (G : Graph) (vi vt i : Nat) :
    (G.addEdge vi vt i).vertices = G.vertices := rfl

theorem rewireGo_pos (e : Letter) (newIds newVs : List Nat) :
    ∀ (l : List Nat) (G : Graph),
      (l.foldl
        (fun G i =>
          let v := newVs.getD i 0
          if i = 0 then
            let vt := G.terminalVertex e
            (G.setTerminalVertex e v).addEdge v vt (newIds.getD 0 0)
          else
            let prev := Letter.pos (newIds.getD (i - 1) 0)
            let vt := G.terminalVertex prev
            (G.setTerminalVertex prev v).addEdge v vt (newIds.getD i 0)) G).pos =
      G.pos ++ l.map (fun i => newIds.getD i 0) := by
  intro l
  induction l with
  | nil => intro G; simp
  | cons i rest ih =>
    intro G
    rw [List.foldl_cons, ih, List.map_cons]
    have hstep :
        ((if i = 0 then
            (G.setTerminalVertex e (newVs.getD i 0)).addEdge (newVs.getD i 0)
              (G.terminalVertex e) (newIds.getD 0 0)
          else
            (G.setTerminalVertex (Letter.pos (newIds.getD (i - 1) 0))
              (newVs.getD i 0)).addEdge (newVs.getD i 0)
              (G.terminalVertex (Letter.pos (newIds.getD (i - 1) 0)))
              (newIds.getD i 0)) : Graph).pos = G.pos ++ [newIds.getD i 0] := by
      by_cases h0 : i = 0
      · subst h0
        rw [if_pos rfl, addEdge_pos, setTerminalVertex_pos]
      · rw [if_neg h0, addEdge_pos, setTerminalVertex_pos]
    rw [show ((fun (G : Graph) (i : Nat) =>
          let v := newVs.getD i 0
          if i = 0 then
            let vt := G.terminalVertex e
            (G.setTerminalVertex e v).addEdge v vt (newIds.getD 0 0)
          else
            let prev := Letter.pos (newIds.getD (i - 1) 0)
            let vt := G.terminalVertex prev
            (G.setTerminalVertex prev v).addEdge v vt (newIds.getD i 0)) G i).pos =
        G.pos ++ [newIds.getD i 0] from hstep, List.append_assoc]
    rfl

theorem rewireGo_vertices (e : Letter) (newIds newVs : List Nat) :
    ∀ (l : List Nat) (G : Graph),
      (l.foldl
        (fun G i =>
          let v := newVs.getD i 0
          if i = 0 then
            let vt := G.terminalVertex e
            (G.setTerminalVertex e v).addEdge v vt (newIds.getD 0 0)
          else
            let prev := Letter.pos (newIds.getD (i - 1) 0)
            let vt := G.terminalVertex prev
            (G.setTerminalVertex prev v).addEdge v vt (newIds.getD i 0)) G).vertices =
      G.vertices := by
  intro l
  induction l with
  | nil => intro G; rfl
  | cons i rest ih =>
    intro G
    rw [List.foldl_cons, ih]
    have hstep :
        ((if i = 0 then
            (G.setTerminalVertex e (newVs.getD i 0)).addEdge (newVs.getD i 0)
              (G.terminalVertex e) (newIds.getD 0 0)
          else
            (G.setTerminalVertex (Letter.pos (newIds.getD (i - 1) 0))
              (newVs.getD i 0)).addEdge (newVs.getD i 0)
              (G.terminalVertex (Letter.pos (newIds.getD (i - 1) 0)))
              (newIds.getD i 0)) : Graph).vertices = G.vertices := by
      by_cases h0 : i = 0
      · subst h0
        rw [if_pos rfl, addEdge_vertices, setTerminalVertex_vertices]
      · rw [if_neg h0, addEdge_vertices, setTerminalVertex_vertices]
    exact show ((fun (G : Graph) (i : Nat) =>
          let v := newVs.getD i 0
          if i = 0 then
            let vt := G.terminalVertex e
            (G.setTerminalVertex e v).addEdge v vt (newIds.getD 0 0)
          else
            let prev := Letter.pos (newIds.getD (i - 1) 0)
            let vt := G.terminalVertex prev
            (G.setTerminalVertex prev v).addEdge v vt (newIds.getD i 0)) G i).vertices =
        G.vertices from hstep

theorem range_map_getD (l : List Nat) (n : Nat) (h : l.length = n) :
    (List.range n).map (fun i => l.getD i 0) = l := by
  subst h
  exact map_getD_range l

theorem subdivide_d_keys (P newIds : List Nat) (i : Nat) (w : Path) (f : Letter → Path)
    (D : List (Letter × Path))
    (hD : D = (newIds.enum.map fun q => (Letter.pos q.2, [w.getD (q.1 + 1) (Letter.pos 0)]))
      ++ [(Letter.pos i, [w.getD 0 (Letter.pos 0)])]
      ++ (((P ++ newIds).filter
            (fun a => decide (a ∉ newIds) && decide (Letter.pos a ≠ Letter.pos i))).map
          (fun a => (Letter.pos a, f (Letter.pos a)))))
    (hndP : P.Nodup) (hndN : newIds.Nodup) (hdisj : ∀ j ∈ newIds, j ∉ P)
    (hiP : i ∈ P) :
    (∀ q ∈ D, ∃ j, q.1 = Letter.pos j) ∧ (D.map (fun q => q.1)).Nodup := by
  have hpos : ∀ q ∈ D, ∃ j, q.1 = Letter.pos j := by
    intro q hq
    rw [hD] at hq
    rcases List.mem_append.mp hq with hq | hq
    · rcases List.mem_append.mp hq with hq | hq
      · obtain ⟨q0, _, hq0⟩ := List.mem_map.mp hq
        exact ⟨q0.2, by rw [← hq0]⟩
      · have hq2 : q = (Letter.pos i, ([w.getD 0 (Letter.pos 0)] : Path)) :=
          List.mem_singleton.mp hq
        exact ⟨i, by rw [hq2]⟩
    · obtain ⟨a, _, ha⟩ := List.mem_map.mp hq
      exact ⟨a, by rw [← ha]⟩
  have hkeys : D.map (fun q => q.1) =
      (newIds.map Letter.pos ++ [Letter.pos i]) ++
        (((P ++ newIds).filter
            (fun a => decide (a ∉ newIds) && decide (Letter.pos a ≠ Letter.pos i))).map
          Letter.pos) := by
    rw [hD, List.map_append, List.map_append, List.map_map, List.map_map]
    congr 2
    rw [show ((fun q : Letter × Path => q.1) ∘
        (fun q : Nat × Nat => (Letter.pos q.2, ([w.getD (q.1 + 1) (Letter.pos 0)] : Path))))
        = (Letter.pos ∘ Prod.snd) from rfl]
    rw [← List.map_map, List.enum_map_snd]
  have hnodup : (D.map (fun q => q.1)).Nodup := by
    rw [hkeys]
    have hposinj : Function.Injective Letter.pos := fun x y hxy => by cases hxy; rfl
    have hPN : (P ++ newIds).Nodup :=
      List.Nodup.append hndP hndN (fun a haP haN => hdisj a haN haP)
    refine List.Nodup.append
      (List.Nodup.append (List.Nodup.map hposinj hndN) (by simp) ?_)
      (List.Nodup.map hposinj (List.Nodup.filter _ hPN)) ?_
    · intro x hx1 hx2
      obtain ⟨j, hj, hjx⟩ := List.mem_map.mp hx1
      have hx2' := List.mem_singleton.mp hx2
      rw [← hjx] at hx2'
      injection hx2' with hji
      subst hji
      exact hdisj j hj hiP
    · intro x hx1 hx2
      obtain ⟨a, ha, hax⟩ := List.mem_map.mp hx2
      have hcond := List.of_mem_filter ha
      rw [Bool.and_eq_true, decide_eq_true_iff, decide_eq_true_iff] at hcond
      rcases List.mem_append.mp hx1 with hx1 | hx1
      · obtain ⟨j, hj, hjx⟩ := List.mem_map.mp hx1
        rw [← hjx] at hax
        cases hax
        exact hcond.1 hj
      · have hx1' := List.mem_singleton.mp hx1
        rw [hx1'] at hax
        exact hcond.2 hax
  exact ⟨hpos, hnodup⟩

theorem subdivide_d_facts (P newIds : List Nat) (i : Nat) (w : Path) (f : Letter → Path)
    (D : List (Letter × Path))
    (hD : D = (newIds.enum.map fun q => (Letter.pos q.2, [w.getD (q.1 + 1) (Letter.pos 0)]))
      ++ [(Letter.pos i, [w.getD 0 (Letter.pos 0)])]
      ++ (((P ++ newIds).filter
            (fun a => decide (a ∉ newIds) && decide (Letter.pos a ≠ Letter.pos i))).map
          (fun a => (Letter.pos a, f (Letter.pos a)))))
    (hndP : P.Nodup) (hndN : newIds.Nodup) (hdisj : ∀ j ∈ newIds, j ∉ P)
    (hiP : i ∈ P) (hredf : ∀ a, reducedB (f a) = true) :
    (∀ j ∈ newIds, ∃ x, setEdgeMapFn D (Letter.pos j) = some [x]) ∧
    (∃ x, setEdgeMapFn D (Letter.pos i) = some [x]) ∧
    (∀ j ∈ P, j ≠ i → setEdgeMapFn D (Letter.pos j) = some (f (Letter.pos j))) := by
  obtain ⟨hpos, hnodup⟩ := subdivide_d_keys P newIds i w f D hD hndP hndN hdisj hiP
  refine ⟨?_, ?_, ?_⟩
  · intro j hj
    have hj2 : j ∈ newIds.enum.map Prod.snd := by rw [List.enum_map_snd]; exact hj
    obtain ⟨q0, hq0, hq0j⟩ := List.mem_map.mp hj2
    have hmem : (Letter.pos j, ([w.getD (q0.1 + 1) (Letter.pos 0)] : Path)) ∈ D := by
      rw [hD]
      refine List.mem_append.mpr (Or.inl (List.mem_append.mpr (Or.inl ?_)))
      refine List.mem_map.mpr ⟨q0, hq0, ?_⟩
      rw [hq0j]
    refine ⟨w.getD (q0.1 + 1) (Letter.pos 0), ?_⟩
    rw [(setEdgeMapFn_posKeys D hpos hnodup j _ hmem).1]
    rfl
  · have hmem : (Letter.pos i, ([w.getD 0 (Letter.pos 0)] : Path)) ∈ D := by
      rw [hD]
      exact List.mem_append.mpr (Or.inl (List.mem_append.mpr (Or.inr
        (List.mem_cons_self _ _))))
    refine ⟨w.getD 0 (Letter.pos 0), ?_⟩
    rw [(setEdgeMapFn_posKeys D hpos hnodup i _ hmem).1]
    rfl
  · intro j hjP hji
    have hmem : (Letter.pos j, f (Letter.pos j)) ∈ D := by
      rw [hD]
      refine List.mem_append.mpr (Or.inr ?_)
      refine List.mem_map.mpr ⟨j, ?_, rfl⟩
      refine List.mem_filter.mpr ⟨List.mem_append.mpr (Or.inl hjP), ?_⟩
      rw [Bool.and_eq_true, decide_eq_true_iff, decide_eq_true_iff]
      exact ⟨fun hc => hdisj j hc hjP, fun hc => hji (by cases hc; rfl)⟩
    rw [(setEdgeMapFn_posKeys D hpos hnodup j _ hmem).1,
      reducePath_eq_self (hredf (Letter.pos j))]

theorem graph_with_vertices_pos (G : Graph) (X : List Nat) :
    ({ G with vertices := X } : Graph).pos = G.pos := rfl

theorem subdivide_spec (gm : GraphMap) (i : Nat)
    (hnd : gm.domain.pos.Nodup) (hie : i ∈ gm.domain.pos) (hinv : EMInv gm.edge_map) :
    (gm.subdivide_domain (Letter.pos i)).domain.pos =
        gm.domain.pos ++ gm.domain.freshIds ((img gm.edge_map (Letter.pos i)).length - 1) ∧
    (∀ j ∈ gm.domain.freshIds ((img gm.edge_map (Letter.pos i)).length - 1),
        ∃ x, (gm.subdivide_domain (Letter.pos i)).edge_map (Letter.pos j) = some [x]) ∧
    (∃ x, (gm.subdivide_domain (Letter.pos i)).edge_map (Letter.pos i) = some [x]) ∧
    (∀ j ∈ gm.domain.pos, j ≠ i →
        (gm.subdivide_domain (Letter.pos i)).edge_map (Letter.pos j) =
          some (img gm.edge_map (Letter.pos j))) := by
  have hfacts := subdivide_d_facts gm.domain.pos
    (gm.domain.freshIds ((img gm.edge_map (Letter.pos i)).length - 1)) i
    (img gm.edge_map (Letter.pos i)) (fun a => img gm.edge_map a) _ rfl hnd
    (freshIds_nodup _ _) (fun j hj => freshIds_not_mem _ _ j hj) hie
    (EMInv_to_total gm.edge_map hinv).2
  simp only [GraphMap.subdivide_domain, GraphMap.set_edge_map]
  rw [rewireGo_pos, range_map_getD
    (gm.domain.freshIds ((img gm.edge_map (Letter.pos i)).length - 1))
    ((img gm.edge_map (Letter.pos i)).length - 1) (freshIds_length _ _),
    graph_with_vertices_pos]
  exact ⟨rfl, hfacts.1, hfacts.2.1, hfacts.2.2⟩

theorem neg_from_pos (m : Letter → Option Path) (hinv : EMInv m) (k : Nat) (w : Path)
    (h : m (Letter.pos k) = some w) : m (Letter.neg k) = some (reversePath w) := by
  have h2 := (hinv (Letter.pos k)).1
  rw [h] at h2
  exact h2

theorem EMInv_neg_single (m : Letter → Option Path) (hinv : EMInv m) (k : Nat) (x : Letter)
    (h : m (Letter.pos k) = some [x]) : m (Letter.neg k) = some [x.bar] :=
  neg_from_pos m hinv k [x] h

theorem allLetters_len1 (g : GraphMap) (hinv : EMInv g.edge_map)
    (h : ∀ k ∈ g.domain.pos, ∃ x, g.edge_map (Letter.pos k) = some [x]) :
    ∀ a ∈ g.domain.allLetters, ∃ x, g.edge_map a = some [x] := by
  intro a ha
  cases a with
  | pos k => exact h k (pos_index_mem ha)
  | neg k =>
    obtain ⟨x, hx⟩ := h k (pos_index_mem ha)
    exact ⟨x.bar, EMInv_neg_single g.edge_map hinv k x hx⟩

theorem phaseA_stage1 :
    ∀ (l : List Nat) (g : GraphMap),
      g.domain.pos.Nodup → EMInv g.edge_map →
      (∀ a ∈ g.domain.allLetters, ∃ w, g.edge_map a = some w ∧ w ≠ []) →
      (∀ j ∈ l, j ∈ g.domain.pos) →
      (∀ k ∈ g.domain.pos, k ∈ l ∨ ∃ x, g.edge_map (Letter.pos k) = some [x]) →
      (l.foldl (fun g j => if 1 < (img g.edge_map (Letter.pos j)).length
          then g.subdivide_domain (Letter.pos j) else g) g).domain.pos.Nodup ∧
      EMInv (l.foldl (fun g j => if 1 < (img g.edge_map (Letter.pos j)).length
          then g.subdivide_domain (Letter.pos j) else g) g).edge_map ∧
      (∀ a ∈ (l.foldl (fun g j => if 1 < (img g.edge_map (Letter.pos j)).length
          then g.subdivide_domain (Letter.pos j) else g) g).domain.allLetters,
        ∃ w, (l.foldl (fun g j => if 1 < (img g.edge_map (Letter.pos j)).length
          then g.subdivide_domain (Letter.pos j) else g) g).edge_map a = some w ∧ w ≠ []) ∧
      (∀ k ∈ (l.foldl (fun g j => if 1 < (img g.edge_map (Letter.pos j)).length
          then g.subdivide_domain (Letter.pos j) else g) g).domain.pos,
        ∃ x, (l.foldl (fun g j => if 1 < (img g.edge_map (Letter.pos j)).length
          then g.subdivide_domain (Letter.pos j) else g) g).edge_map (Letter.pos k) =
          some [x]) ∧
      (∀ j ∈ g.domain.pos,
        j ∈ (l.foldl (fun g j => if 1 < (img g.edge_map (Letter.pos j)).length
          then g.subdivide_domain (Letter.pos j) else g) g).domain.pos) := by
  intro l
  induction l with
  | nil =>
    intro g h1 h2 h3 _ h5
    refine ⟨h1, h2, h3, ?_, fun j hj => hj⟩
    intro k hk
    rcases h5 k hk with hk2 | hk2
    · cases hk2
    · exact hk2
  | cons j0 rest ih =>
    intro g h1 h2 h3 h4 h5
    rw [List.foldl_cons]
    by_cases hc : 1 < (img g.edge_map (Letter.pos j0)).length
    · rw [if_pos hc]
      have hj0 : j0 ∈ g.domain.pos := h4 j0 (List.mem_cons_self j0 rest)
      obtain ⟨hspos, hnew, hself, hold⟩ := subdivide_spec g j0 h1 hj0 h2
      have hfresh : ∀ x ∈ g.domain.pos,
          x ∉ g.domain.freshIds ((img g.edge_map (Letter.pos j0)).length - 1) :=
        fun x hx hfx => freshIds_not_mem _ _ x hfx hx
      have h1' : (g.subdivide_domain (Letter.pos j0)).domain.pos.Nodup := by
        rw [hspos]
        exact List.Nodup.append h1 (freshIds_nodup _ _) hfresh
      have h2' : EMInv (g.subdivide_domain (Letter.pos j0)).edge_map :=
        EMInv_subdivide g (Letter.pos j0)
      have hsingle : ∀ k ∈ (g.subdivide_domain (Letter.pos j0)).domain.pos,
          k ∈ rest ∨ ∃ x, (g.subdivide_domain (Letter.pos j0)).edge_map (Letter.pos k) =
            some [x] := by
        intro k hk
        rw [hspos] at hk
        rcases List.mem_append.mp hk with hk | hk
        · by_cases hkj : k = j0
          · subst hkj
            exact Or.inr hself
          · rcases h5 k hk with hk2 | hk2
            · rcases List.mem_cons.mp hk2 with hk3 | hk3
              · exact absurd hk3 hkj
              · exact Or.inl hk3
            · obtain ⟨x, hx⟩ := hk2
              refine Or.inr ⟨x, ?_⟩
              rw [hold k hk hkj, img, hx]
              rfl
        · exact Or.inr (hnew k hk)
      have h3' : ∀ a ∈ (g.subdivide_domain (Letter.pos j0)).domain.allLetters,
          ∃ w, (g.subdivide_domain (Letter.pos j0)).edge_map a = some w ∧ w ≠ [] := by
        intro a ha
        have hka := pos_index_mem ha
        rw [hspos] at hka
        have hposside : ∀ k, k ∈ g.domain.pos ++
            g.domain.freshIds ((img g.edge_map (Letter.pos j0)).length - 1) →
            ∃ w, (g.subdivide_domain (Letter.pos j0)).edge_map (Letter.pos k) = some w ∧
              w ≠ [] := by
          intro k hk
          rcases List.mem_append.mp hk with hk | hk
          · by_cases hkj : k = j0
            · subst hkj
              obtain ⟨x, hx⟩ := hself
              exact ⟨[x], hx, by simp⟩
            · obtain ⟨w, hw, hwne⟩ := h3 (Letter.pos k) (mem_allLetters_pos hk)
              refine ⟨w, ?_, hwne⟩
              rw [hold k hk hkj, img, hw]
              rfl
          · obtain ⟨x, hx⟩ := hnew k hk
            exact ⟨[x], hx, by simp⟩
        cases a with
        | pos k => exact hposside k hka
        | neg k =>
          obtain ⟨w, hw, hwne⟩ := hposside k hka
          refine ⟨reversePath w, neg_from_pos _ h2' k w hw, ?_⟩
          intro hcon
          apply hwne
          have := congrArg List.length hcon
          rw [length_reversePath] at this
          exact List.length_eq_zero.mp this
      have h4' : ∀ j ∈ rest, j ∈ (g.subdivide_domain (Letter.pos j0)).domain.pos := by
        intro j hj
        rw [hspos]
        exact List.mem_append.mpr (Or.inl (h4 j (List.mem_cons_of_mem j0 hj)))
      obtain ⟨c1, c2, c3, c4, c5⟩ := ih (g.subdivide_domain (Letter.pos j0)) h1' h2' h3'
        h4' hsingle
      refine ⟨c1, c2, c3, c4, ?_⟩
      intro j hj
      refine c5 j ?_
      rw [hspos]
      exact List.mem_append.mpr (Or.inl hj)
    · rw [if_neg hc]
      have hsingle : ∀ k ∈ g.domain.pos, k ∈ rest ∨
          ∃ x, g.edge_map (Letter.pos k) = some [x] := by
        intro k hk
        rcases h5 k hk with hk2 | hk2
        · rcases List.mem_cons.mp hk2 with hk3 | hk3
          · subst hk3
            obtain ⟨w, hw, hwne⟩ := h3 (Letter.pos k) (mem_allLetters_pos hk)
            have hlen : w.length = 1 := by
              rw [img, hw] at hc
              have : w.length ≤ 1 := by simpa using hc
              have : 0 < w.length := List.length_pos.mpr hwne
              omega
            obtain ⟨x, hx⟩ := List.length_eq_one.mp hlen
            exact Or.inr ⟨x, by rw [hw, hx]⟩
          · exact Or.inl hk3
        · exact Or.inr hk2
      exact ih g h1 h2 h3 (fun j hj => h4 j (List.mem_cons_of_mem j0 hj)) hsingle

theorem phaseA_stage2 :
    ∀ (l : List Letter) (g : GraphMap),
      (∀ a ∈ l, a ∈ g.domain.allLetters) →
      (∀ a ∈ g.domain.allLetters, ¬ 1 < (img g.edge_map a).length) →
      l.foldl (fun g a => if 1 < (img g.edge_map a).length then g.subdivide_domain a else g)
        g = g := by
  intro l
  induction l with
  | nil => intro g _ _; rfl
  | cons a rest ih =>
    intro g hmem hsmall
    rw [List.foldl_cons, if_neg (hsmall a (hmem a (List.mem_cons_self a rest)))]
    exact ih g (fun b hb => hmem b (List.mem_cons_of_mem a hb)) hsmall

theorem phaseA_final (gm : GraphMap) (h1 : gm.domain.pos.Nodup) (h2 : EMInv gm.edge_map)
    (h3 : ∀ a ∈ gm.domain.allLetters, ∃ w, gm.edge_map a = some w ∧ w ≠ []) :
    (gm.domain.allLetters.foldl
      (fun g a => if 1 < (img g.edge_map a).length then g.subdivide_domain a else g)
      gm).domain.pos.Nodup ∧
    EMInv (gm.domain.allLetters.foldl
      (fun g a => if 1 < (img g.edge_map a).length then g.subdivide_domain a else g)
      gm).edge_map ∧
    (∀ a ∈ (gm.domain.allLetters.foldl
        (fun g a => if 1 < (img g.edge_map a).length then g.subdivide_domain a else g)
        gm).domain.allLetters,
      ∃ x, (gm.domain.allLetters.foldl
        (fun g a => if 1 < (img g.edge_map a).length then g.subdivide_domain a else g)
        gm).edge_map a = some [x]) := by
  rw [Graph.allLetters, List.foldl_append, List.foldl_map, List.foldl_map]
  obtain ⟨c1, c2, c3, c4, c5⟩ := phaseA_stage1 gm.domain.pos gm h1 h2 h3
    (fun j hj => hj) (fun k hk => Or.inl hk)
  have hlen1 := allLetters_len1 _ c2 c4
  have hstage2 := phaseA_stage2 (gm.domain.pos.map Letter.neg)
    (gm.domain.pos.foldl (fun g j => if 1 < (img g.edge_map (Letter.pos j)).length
      then g.subdivide_domain (Letter.pos j) else g) gm)
    (by
      intro a ha
      obtain ⟨k, hk, hka⟩ := List.mem_map.mp ha
      rw [← hka]
      exact mem_allLetters_neg (c5 k hk))
    (by
      intro a ha
      obtain ⟨x, hx⟩ := hlen1 a ha
      rw [img, hx]
      simp)
  rw [List.foldl_map] at hstage2
  rw [hstage2]
  exact ⟨c1, c2, hlen1⟩

theorem allLetters_sub {G G' : Graph} (h : ∀ j ∈ G'.pos, j ∈ G.pos) :
    ∀ b ∈ G'.allLetters, b ∈ G.allLetters := by
  intro b hb
  cases b with
  | pos j => exact mem_allLetters_pos (h j (pos_index_mem hb))
  | neg j => exact mem_allLetters_neg (h j (pos_index_mem hb))

theorem foldLoop_step (fuel : Nat) (gm : GraphMap) (t : Letter × Letter)
    (rest : List (Letter × Letter)) (fil : List Letter)
    (hfil : fil = gm.domain.allLetters.filter
        (fun a => decide (gm.domain.initialVertex a = gm.domain.initialVertex t.1)
          && decide (a ≠ t.1)
          && (decide ((t.1, a) ∈ t :: rest) || decide ((a, t.1) ∈ t :: rest))))
    (hnodup : (t.1 :: fil).Nodup) :
    foldLoop (fuel + 1) gm (t :: rest) =
      (match illegalTurns (setEdgeMapFn ((t.1, img gm.edge_map t.1) ::
          (((gm.domain.fold (t.1 :: fil)).allLetters.filter
              (fun a => decide (a ∉ t.1 :: fil))).map
            (fun a => (a, img gm.edge_map a)))))
          ((gm.domain.fold (t.1 :: fil)).turns) with
       | none => none
       | some il' => foldLoop fuel
          ({ gm with domain := gm.domain.fold (t.1 :: fil) }.set_edge_map
            ((t.1, img gm.edge_map t.1) ::
              (((gm.domain.fold (t.1 :: fil)).allLetters.filter
                  (fun a => decide (a ∉ t.1 :: fil))).map
                (fun a => (a, img gm.edge_map a))))) il') := by
  subst hfil
  simp only [foldLoop]
  rw [List.dedup_eq_self.mpr hnodup]
  simp only [List.headD_cons]
  rfl

theorem foldLoop_spec :
    ∀ (fuel : Nat) (gm : GraphMap) (il : List (Letter × Letter)),
      gm.domain.pos.length < fuel →
      gm.domain.pos.Nodup →
      EMInv gm.edge_map →
      (∀ a ∈ gm.domain.allLetters, ∃ x, gm.edge_map a = some [x]) →
      illegalTurns gm.edge_map gm.domain.turns = some il →
      ∃ gmf, foldLoop fuel gm il = some gmf ∧ EMInv gmf.edge_map ∧
        illegalTurns gmf.edge_map gmf.domain.turns = some [] := by
  intro fuel
  induction fuel with
  | zero =>
    intro gm il hf
    exact absurd hf (Nat.not_lt_zero _)
  | succ fuel ih =>
    intro gm il hf hnd hinv hsingle hil
    cases il with
    | nil => exact ⟨gm, rfl, hinv, hil⟩
    | cons t rest =>
      obtain ⟨hturn, x, hx1, hx2⟩ :=
        illegalTurns_mem gm.edge_map _ _ hil t (List.mem_cons_self t rest)
      obtain ⟨ht1, ht2, htv⟩ := mem_turns hturn
      have htne := mem_turns_ne hnd hturn
      have hPt2 : (decide (gm.domain.initialVertex t.2 = gm.domain.initialVertex t.1)
          && decide (t.2 ≠ t.1)
          && (decide ((t.1, t.2) ∈ t :: rest) || decide ((t.2, t.1) ∈ t :: rest))) = true := by
        simp only [Bool.and_eq_true, Bool.or_eq_true, decide_eq_true_iff]
        refine ⟨⟨htv.symm, fun hc => htne hc.symm⟩, Or.inl ?_⟩
        rw [Prod.mk.eta]
        exact List.mem_cons_self t rest
      have hfilmem : t.2 ∈ gm.domain.allLetters.filter
          (fun a => decide (gm.domain.initialVertex a = gm.domain.initialVertex t.1)
            && decide (a ≠ t.1)
            && (decide ((t.1, a) ∈ t :: rest) || decide ((a, t.1) ∈ t :: rest))) :=
        List.mem_filter.mpr ⟨ht2, hPt2⟩
      have hfilnd : (gm.domain.allLetters.filter
          (fun a => decide (gm.domain.initialVertex a = gm.domain.initialVertex t.1)
            && decide (a ≠ t.1)
            && (decide ((t.1, a) ∈ t :: rest) || decide ((a, t.1) ∈ t :: rest)))).Nodup :=
        List.Nodup.filter _ (allLetters_nodup _ hnd)
      have hhead : t.1 ∉ gm.domain.allLetters.filter
          (fun a => decide (gm.domain.initialVertex a = gm.domain.initialVertex t.1)
            && decide (a ≠ t.1)
            && (decide ((t.1, a) ∈ t :: rest) || decide ((a, t.1) ∈ t :: rest))) := by
        intro hc
        have := List.of_mem_filter hc
        simp only [Bool.and_eq_true, decide_eq_true_iff] at this
        exact this.1.2 rfl
      have hnodup := List.nodup_cons.mpr ⟨hhead, hfilnd⟩
      have hstep := foldLoop_step fuel gm t rest _ rfl hnodup
      have hG'pos : (gm.domain.fold (t.1 :: gm.domain.allLetters.filter
          (fun a => decide (gm.domain.initialVertex a = gm.domain.initialVertex t.1)
            && decide (a ≠ t.1)
            && (decide ((t.1, a) ∈ t :: rest) || decide ((a, t.1) ∈ t :: rest))))).pos =
          gm.domain.pos.filter (fun i => decide (i ∉
            ((gm.domain.allLetters.filter
              (fun a => decide (gm.domain.initialVertex a = gm.domain.initialVertex t.1)
                && decide (a ≠ t.1)
                && (decide ((t.1, a) ∈ t :: rest) || decide ((a, t.1) ∈ t :: rest)))).map
              Letter.index))) := rfl
      have hrem : t.2.index ∈ (gm.domain.allLetters.filter
          (fun a => decide (gm.domain.initialVertex a = gm.domain.initialVertex t.1)
            && decide (a ≠ t.1)
            && (decide ((t.1, a) ∈ t :: rest) || decide ((a, t.1) ∈ t :: rest)))).map
          Letter.index := List.mem_map_of_mem _ hfilmem
      have hpfalse : (decide (t.2.index ∉ (gm.domain.allLetters.filter
          (fun a => decide (gm.domain.initialVertex a = gm.domain.initialVertex t.1)
            && decide (a ≠ t.1)
            && (decide ((t.1, a) ∈ t :: rest) || decide ((a, t.1) ∈ t :: rest)))).map
          Letter.index)) = false := by
        rw [decide_eq_false_iff_not]
        exact not_not_intro hrem
      have hlen := filter_length_lt
        (fun i => decide (i ∉ (gm.domain.allLetters.filter
          (fun a => decide (gm.domain.initialVertex a = gm.domain.initialVertex t.1)
            && decide (a ≠ t.1)
            && (decide ((t.1, a) ∈ t :: rest) || decide ((a, t.1) ∈ t :: rest)))).map
          Letter.index))
        gm.domain.pos t.2.index (pos_index_mem ht2) hpfalse
      have hsub : ∀ j ∈ (gm.domain.fold (t.1 :: gm.domain.allLetters.filter
          (fun a => decide (gm.domain.initialVertex a = gm.domain.initialVertex t.1)
            && decide (a ≠ t.1)
            && (decide ((t.1, a) ∈ t :: rest) || decide ((a, t.1) ∈ t :: rest))))).pos,
          j ∈ gm.domain.pos := by
        intro j hj
        rw [hG'pos] at hj
        exact List.mem_of_mem_filter hj
      obtain ⟨hcons, hred⟩ := EMInv_to_total gm.edge_map hinv
      have hmap : ∀ b ∈ t.1 :: ((gm.domain.fold (t.1 :: gm.domain.allLetters.filter
          (fun a => decide (gm.domain.initialVertex a = gm.domain.initialVertex t.1)
            && decide (a ≠ t.1)
            && (decide ((t.1, a) ∈ t :: rest) || decide ((a, t.1) ∈ t :: rest))))).allLetters.filter
            (fun a => decide (a ∉ t.1 :: gm.domain.allLetters.filter
              (fun a => decide (gm.domain.initialVertex a = gm.domain.initialVertex t.1)
                && decide (a ≠ t.1)
                && (decide ((t.1, a) ∈ t :: rest) || decide ((a, t.1) ∈ t :: rest)))))),
          setEdgeMapFn ((t.1, img gm.edge_map t.1) ::
            (((gm.domain.fold (t.1 :: gm.domain.allLetters.filter
                (fun a => decide (gm.domain.initialVertex a = gm.domain.initialVertex t.1)
                  && decide (a ≠ t.1)
                  && (decide ((t.1, a) ∈ t :: rest) || decide ((a, t.1) ∈ t :: rest))))).allLetters.filter
                (fun a => decide (a ∉ t.1 :: gm.domain.allLetters.filter
                  (fun a => decide (gm.domain.initialVertex a = gm.domain.initialVertex t.1)
                    && decide (a ≠ t.1)
                    && (decide ((t.1, a) ∈ t :: rest) || decide ((a, t.1) ∈ t :: rest)))))).map
              (fun a => (a, img gm.edge_map a)))) b = some (img gm.edge_map b) := by
        intro b hb
        exact setEdgeMapFn_map_self _ (fun a => img gm.edge_map a) hcons hred b hb
      have hsingle' : ∀ b ∈ (gm.domain.fold (t.1 :: gm.domain.allLetters.filter
          (fun a => decide (gm.domain.initialVertex a = gm.domain.initialVertex t.1)
            && decide (a ≠ t.1)
            && (decide ((t.1, a) ∈ t :: rest) || decide ((a, t.1) ∈ t :: rest))))).allLetters,
          ∃ x, setEdgeMapFn ((t.1, img gm.edge_map t.1) ::
            (((gm.domain.fold (t.1 :: gm.domain.allLetters.filter
                (fun a => decide (gm.domain.initialVertex a = gm.domain.initialVertex t.1)
                  && decide (a ≠ t.1)
                  && (decide ((t.1, a) ∈ t :: rest) || decide ((a, t.1) ∈ t :: rest))))).allLetters.filter
                (fun a => decide (a ∉ t.1 :: gm.domain.allLetters.filter
                  (fun a => decide (gm.domain.initialVertex a = gm.domain.initialVertex t.1)
                    && decide (a ≠ t.1)
                    && (decide ((t.1, a) ∈ t :: rest) || decide ((a, t.1) ∈ t :: rest)))))).map
              (fun a => (a, img gm.edge_map a)))) b = some [x] := by
        intro b hb
        by_cases hb1 : b = t.1
        · obtain ⟨y, hy⟩ := hsingle t.1 ht1
          refine ⟨y, ?_⟩
          rw [hb1, hmap t.1 (List.mem_cons_self _ _), img, hy]
          rfl
        · have hnotin : b ∉ t.1 :: gm.domain.allLetters.filter
              (fun a => decide (gm.domain.initialVertex a = gm.domain.initialVertex t.1)
                && decide (a ≠ t.1)
                && (decide ((t.1, a) ∈ t :: rest) || decide ((a, t.1) ∈ t :: rest))) := by
            intro hc
            rcases List.mem_cons.mp hc with hc | hc
            · exact hb1 hc
            · have hbi := pos_index_mem hb
              rw [hG'pos] at hbi
              have hdec := List.of_mem_filter hbi
              rw [decide_eq_true_iff] at hdec
              exact hdec (List.mem_map_of_mem _ hc)
          have hbL : b ∈ (gm.domain.fold (t.1 :: gm.domain.allLetters.filter
              (fun a => decide (gm.domain.initialVertex a = gm.domain.initialVertex t.1)
                && decide (a ≠ t.1)
                && (decide ((t.1, a) ∈ t :: rest) || decide ((a, t.1) ∈ t :: rest))))).allLetters.filter
                (fun a => decide (a ∉ t.1 :: gm.domain.allLetters.filter
                  (fun a => decide (gm.domain.initialVertex a = gm.domain.initialVertex t.1)
                    && decide (a ≠ t.1)
                    && (decide ((t.1, a) ∈ t :: rest) || decide ((a, t.1) ∈ t :: rest))))) :=
            List.mem_filter.mpr ⟨hb, by rw [decide_eq_true_iff]; exact hnotin⟩
          obtain ⟨y, hy⟩ := hsingle b (allLetters_sub hsub b hb)
          refine ⟨y, ?_⟩
          rw [hmap b (List.mem_cons_of_mem _ hbL), img, hy]
          rfl
      have hilsome := illegalTurns_total
        (setEdgeMapFn ((t.1, img gm.edge_map t.1) ::
          (((gm.domain.fold (t.1 :: gm.domain.allLetters.filter
              (fun a => decide (gm.domain.initialVertex a = gm.domain.initialVertex t.1)
                && decide (a ≠ t.1)
                && (decide ((t.1, a) ∈ t :: rest) || decide ((a, t.1) ∈ t :: rest))))).allLetters.filter
              (fun a => decide (a ∉ t.1 :: gm.domain.allLetters.filter
                (fun a => decide (gm.domain.initialVertex a = gm.domain.initialVertex t.1)
                  && decide (a ≠ t.1)
                  && (decide ((t.1, a) ∈ t :: rest) || decide ((a, t.1) ∈ t :: rest)))))).map
            (fun a => (a, img gm.edge_map a)))))
        ((gm.domain.fold (t.1 :: gm.domain.allLetters.filter
          (fun a => decide (gm.domain.initialVertex a = gm.domain.initialVertex t.1)
            && decide (a ≠ t.1)
            && (decide ((t.1, a) ∈ t :: rest) || decide ((a, t.1) ∈ t :: rest))))).turns)
        (by
          intro u hu
          obtain ⟨hu1, hu2, _⟩ := mem_turns hu
          obtain ⟨y1, hy1⟩ := hsingle' u.1 hu1
          obtain ⟨y2, hy2⟩ := hsingle' u.2 hu2
          constructor
          · rw [hy1]; rfl
          · rw [hy2]; rfl)
      obtain ⟨il', heq⟩ := Option.isSome_iff_exists.mp hilsome
      obtain ⟨gmf, hrun, hinvf, hzero⟩ := ih
        ({ gm with domain := gm.domain.fold (t.1 :: gm.domain.allLetters.filter
            (fun a => decide (gm.domain.initialVertex a = gm.domain.initialVertex t.1)
              && decide (a ≠ t.1)
              && (decide ((t.1, a) ∈ t :: rest) || decide ((a, t.1) ∈ t :: rest)))) }.set_edge_map
          ((t.1, img gm.edge_map t.1) ::
            (((gm.domain.fold (t.1 :: gm.domain.allLetters.filter
                (fun a => decide (gm.domain.initialVertex a = gm.domain.initialVertex t.1)
                  && decide (a ≠ t.1)
                  && (decide ((t.1, a) ∈ t :: rest) || decide ((a, t.1) ∈ t :: rest))))).allLetters.filter
                (fun a => decide (a ∉ t.1 :: gm.domain.allLetters.filter
                  (fun a => decide (gm.domain.initialVertex a = gm.domain.initialVertex t.1)
                    && decide (a ≠ t.1)
                    && (decide ((t.1, a) ∈ t :: rest) || decide ((a, t.1) ∈ t :: rest)))))).map
              (fun a => (a, img gm.edge_map a)))))
        il'
        (by
          show (gm.domain.fold (t.1 :: gm.domain.allLetters.filter
            (fun a => decide (gm.domain.initialVertex a = gm.domain.initialVertex t.1)
              && decide (a ≠ t.1)
              && (decide ((t.1, a) ∈ t :: rest) || decide ((a, t.1) ∈ t :: rest))))).pos.length
            < fuel
          rw [hG'pos]
          omega)
        (by
          show (gm.domain.fold (t.1 :: gm.domain.allLetters.filter
            (fun a => decide (gm.domain.initialVertex a = gm.domain.initialVertex t.1)
              && decide (a ≠ t.1)
              && (decide ((t.1, a) ∈ t :: rest) || decide ((a, t.1) ∈ t :: rest))))).pos.Nodup
          rw [hG'pos]
          exact List.Nodup.filter _ hnd)
        (EMInv_setEdgeMapFn _)
        hsingle'
        heq
      refine ⟨gmf, ?_, hinvf, hzero⟩
      rw [hstep, heq]
      exact hrun

/-- Claim C2, counterexample: the spec says folding "terminates in finite steps
... for all finite inputs" and "never fail[s] on a well-formed input", but on
the well-formed rose map `gmE` (edge `a` with image the empty path, edge `b`
with image `c`) the very first illegal-turns computation indexes
`self.image(turn[0])[0]` of an empty image, an `IndexError`: `folding` fails. -/
theorem C2_counterexample : GraphMap.folding gmE = none := rfl

/-- Claim C2, amended: on a domain with duplicate-free edge list, an
inverse-consistent edge map, and a nonempty image for every letter, `folding`
terminates (the fuel `|pos| + 1` suffices: each fold removes at least one edge
pair) and returns a map with zero illegal turns — an immersion. -/
theorem C2_amended (gm : GraphMap)
    (hnd : gm.domain.pos.Nodup) (hinv : EMInv gm.edge_map)
    (hne : ∀ a ∈ gm.domain.allLetters, ∃ w, gm.edge_map a = some w ∧ w ≠ []) :
    ∃ gmf, GraphMap.folding gm = some gmf ∧
      illegalTurns gmf.edge_map gmf.domain.turns = some [] := by
  obtain ⟨c1, c2, c3⟩ := phaseA_final gm hnd hinv hne
  simp only [GraphMap.folding]
  have hilsome := illegalTurns_total
    (gm.domain.allLetters.foldl
      (fun g a => if 1 < (img g.edge_map a).length then g.subdivide_domain a else g)
      gm).edge_map
    (gm.domain.allLetters.foldl
      (fun g a => if 1 < (img g.edge_map a).length then g.subdivide_domain a else g)
      gm).domain.turns
    (by
      intro u hu
      obtain ⟨hu1, hu2, _⟩ := mem_turns hu
      obtain ⟨y1, hy1⟩ := c3 u.1 hu1
      obtain ⟨y2, hy2⟩ := c3 u.2 hu2
      constructor
      · rw [hy1]; rfl
      · rw [hy2]; rfl)
  obtain ⟨il, heq⟩ := Option.isSome_iff_exists.mp hilsome
  rw [heq]
  obtain ⟨gmf, hrun, _, hzero⟩ := foldLoop_spec
    ((gm.domain.allLetters.foldl
      (fun g a => if 1 < (img g.edge_map a).length then g.subdivide_domain a else g)
      gm).domain.pos.length + 1)
    (gm.domain.allLetters.foldl
      (fun g a => if 1 < (img g.edge_map a).length then g.subdivide_domain a else g)
      gm)
    il (Nat.lt_succ_self _) c1 c2 c3 heq
  exact ⟨gmf, hrun, hzero⟩

/-- Claim C2, witness: the spec's folding scenario `a ↦ c`, `b ↦ c` satisfies
the amended hypotheses, and folding it succeeds with zero illegal turns. -/
theorem C2_amended_witness :
    gmCC.domain.pos.Nodup ∧ EMInv gmCC.edge_map ∧
    (∀ a ∈ gmCC.domain.allLetters, ∃ w, gmCC.edge_map a = some w ∧ w ≠ []) ∧
    (∃ gmf, GraphMap.folding gmCC = some gmf ∧
      illegalTurns gmf.edge_map gmf.domain.turns = some []) := by
  have hne : ∀ a ∈ gmCC.domain.allLetters, ∃ w, gmCC.edge_map a = some w ∧ w ≠ [] := by
    intro a ha
    have ha' : a = Letter.pos 0 ∨ a = Letter.pos 1 ∨ a = Letter.neg 0 ∨ a = Letter.neg 1 := by
      have hm : a ∈ [Letter.pos 0, Letter.pos 1, Letter.neg 0, Letter.neg 1] := ha
      simpa using hm
    rcases ha' with h | h | h | h <;> subst h
    · exact ⟨[Letter.pos 10], rfl, by decide⟩
    · exact ⟨[Letter.pos 10], rfl, by decide⟩
    · exact ⟨[Letter.neg 10], rfl, by decide⟩
    · exact ⟨[Letter.neg 10], rfl, by decide⟩
  exact ⟨by decide, EMInv_setEdgeMapFn _, hne,
    C2_amended gmCC (by decide) (EMInv_setEdgeMapFn _) hne⟩

theorem subdivide_len2 (gm : GraphMap) (i : Nat) (c d : Letter)
    (himg : img gm.edge_map (Letter.pos i) = [c, d]) :
    gm.subdivide_domain (Letter.pos i) =
      { domain :=
          { vertices := gm.domain.vertices ++ [maxList gm.domain.vertices + 1],
            pos := gm.domain.pos ++ [maxList gm.domain.pos + 1],
            init := upd gm.domain.init (maxList gm.domain.pos + 1)
              (maxList gm.domain.vertices + 1),
            term := upd (upd gm.domain.term i (maxList gm.domain.vertices + 1))
              (maxList gm.domain.pos + 1) (gm.domain.term i) },
        codomain := gm.codomain,
        edge_map := setEdgeMapFn
          ([(Letter.pos (maxList gm.domain.pos + 1), [d]), (Letter.pos i, [c])] ++
            (((gm.domain.pos ++ [maxList gm.domain.pos + 1]).filter
                (fun a => decide (a ∉ [maxList gm.domain.pos + 1])
                  && decide (Letter.pos a ≠ Letter.pos i))).map
              (fun a => (Letter.pos a, img gm.edge_map (Letter.pos a))))),
        vertex_map := none } := by
  simp only [GraphMap.subdivide_domain, GraphMap.set_edge_map]
  rw [himg]
  rfl

/-- Claim C9: subdividing an edge `e = i` whose image is the two-letter path
`[c, d]` creates exactly one new vertex `v' = maxList(vertices) + 1` and one
new edge `f = maxList(pos) + 1`; afterwards `e` keeps its initial vertex,
terminates at `v'`, and maps to `[c]`, the new edge runs from `v'` to the old
terminal vertex of `e` and maps to `[d]`, and the image of the composite path
`e · f` is still `[c, d]`. -/
theorem C9_subdivision (gm : GraphMap) (i : Nat) (c d : Letter)
    (hnd : gm.domain.pos.Nodup) (hie : i ∈ gm.domain.pos) (hinv : EMInv gm.edge_map)
    (him : gm.edge_map (Letter.pos i) = some [c, d]) :
    (gm.subdivide_domain (Letter.pos i)).domain.vertices =
      gm.domain.vertices ++ [maxList gm.domain.vertices + 1] ∧
    (gm.subdivide_domain (Letter.pos i)).domain.pos =
      gm.domain.pos ++ [maxList gm.domain.pos + 1] ∧
    (gm.subdivide_domain (Letter.pos i)).domain.init i = gm.domain.init i ∧
    (gm.subdivide_domain (Letter.pos i)).domain.term i =
      maxList gm.domain.vertices + 1 ∧
    (gm.subdivide_domain (Letter.pos i)).domain.init (maxList gm.domain.pos + 1) =
      maxList gm.domain.vertices + 1 ∧
    (gm.subdivide_domain (Letter.pos i)).domain.term (maxList gm.domain.pos + 1) =
      gm.domain.term i ∧
    (gm.subdivide_domain (Letter.pos i)).edge_map (Letter.pos i) = some [c] ∧
    (gm.subdivide_domain (Letter.pos i)).edge_map
      (Letter.pos (maxList gm.domain.pos + 1)) = some [d] ∧
    (gm.subdivide_domain (Letter.pos i)).applyPath
      [Letter.pos i, Letter.pos (maxList gm.domain.pos + 1)] = [c, d] := by
  have himg : img gm.edge_map (Letter.pos i) = [c, d] := by rw [img, him]; rfl
  have hsub := subdivide_len2 gm i c d himg
  have hne : i ≠ maxList gm.domain.pos + 1 := by
    have := maxList_mem_le gm.domain.pos i hie
    omega
  have hkeys := subdivide_d_keys gm.domain.pos [maxList gm.domain.pos + 1] i [c, d]
    (fun a => img gm.edge_map a)
    ([(Letter.pos (maxList gm.domain.pos + 1), [d]), (Letter.pos i, [c])] ++
      (((gm.domain.pos ++ [maxList gm.domain.pos + 1]).filter
          (fun a => decide (a ∉ [maxList gm.domain.pos + 1])
            && decide (Letter.pos a ≠ Letter.pos i))).map
        (fun a => (Letter.pos a, img gm.edge_map (Letter.pos a)))))
    rfl hnd (by simp)
    (by
      intro j hj
      have hj2 := List.mem_singleton.mp hj
      subst hj2
      intro hc
      have := maxList_mem_le gm.domain.pos _ hc
      omega)
    hie
  have hmem_i : (Letter.pos i, ([c] : Path)) ∈
      ([(Letter.pos (maxList gm.domain.pos + 1), [d]), (Letter.pos i, [c])] ++
        (((gm.domain.pos ++ [maxList gm.domain.pos + 1]).filter
            (fun a => decide (a ∉ [maxList gm.domain.pos + 1])
              && decide (Letter.pos a ≠ Letter.pos i))).map
          (fun a => (Letter.pos a, img gm.edge_map (Letter.pos a))))) :=
    List.mem_append.mpr (Or.inl (List.mem_cons_of_mem _ (List.mem_cons_self _ _)))
  have hmem_f : (Letter.pos (maxList gm.domain.pos + 1), ([d] : Path)) ∈
      ([(Letter.pos (maxList gm.domain.pos + 1), [d]), (Letter.pos i, [c])] ++
        (((gm.domain.pos ++ [maxList gm.domain.pos + 1]).filter
            (fun a => decide (a ∉ [maxList gm.domain.pos + 1])
              && decide (Letter.pos a ≠ Letter.pos i))).map
          (fun a => (Letter.pos a, img gm.edge_map (Letter.pos a))))) :=
    List.mem_append.mpr (Or.inl (List.mem_cons_self _ _))
  have h7 : (gm.subdivide_domain (Letter.pos i)).edge_map (Letter.pos i) = some [c] := by
    rw [hsub]
    show setEdgeMapFn _ (Letter.pos i) = some [c]
    rw [(setEdgeMapFn_posKeys _ hkeys.1 hkeys.2 i [c] hmem_i).1]
    rfl
  have h8 : (gm.subdivide_domain (Letter.pos i)).edge_map
      (Letter.pos (maxList gm.domain.pos + 1)) = some [d] := by
    rw [hsub]
    show setEdgeMapFn _ (Letter.pos (maxList gm.domain.pos + 1)) = some [d]
    rw [(setEdgeMapFn_posKeys _ hkeys.1 hkeys.2 (maxList gm.domain.pos + 1) [d] hmem_f).1]
    rfl
  refine ⟨by rw [hsub], by rw [hsub], ?_, ?_, ?_, ?_, h7, h8, ?_⟩
  · rw [hsub]
    exact upd_other _ _ _ _ hne
  · rw [hsub]
    show upd (upd gm.domain.term i (maxList gm.domain.vertices + 1))
      (maxList gm.domain.pos + 1) (gm.domain.term i) i = maxList gm.domain.vertices + 1
    rw [upd_other _ _ _ _ hne, upd_same]
  · rw [hsub]
    exact upd_same _ _ _
  · rw [hsub]
    exact upd_same _ _ _
  · have h7i : img (gm.subdivide_domain (Letter.pos i)).edge_map (Letter.pos i) = [c] := by
      rw [img, h7]
      rfl
    have h8i : img (gm.subdivide_domain (Letter.pos i)).edge_map
        (Letter.pos (maxList gm.domain.pos + 1)) = [d] := by
      rw [img, h8]
      rfl
    show reducePath
      (img (gm.subdivide_domain (Letter.pos i)).edge_map (Letter.pos i) ++
        (img (gm.subdivide_domain (Letter.pos i)).edge_map
          (Letter.pos (maxList gm.domain.pos + 1)) ++ [])) = [c, d]
    rw [h7i, h8i]
    show reducePath [c, d] = [c, d]
    exact reducePath_eq_self ((hinv (Letter.pos i)).2 [c, d] him)

/-- Claim C9, witness: the scenario `e ↦ [c, d]` on the single edge `0 : 0 → 1`
with codomain edges `c = 10`, `d = 11`, where the new vertex is `2` and the
new edge is `1`. -/
theorem C9_witness :
    gm9.domain.pos.Nodup ∧ 0 ∈ gm9.domain.pos ∧ EMInv gm9.edge_map ∧
    gm9.edge_map (Letter.pos 0) = some [Letter.pos 10, Letter.pos 11] ∧
    ((gm9.subdivide_domain (Letter.pos 0)).domain.vertices =
      gm9.domain.vertices ++ [maxList gm9.domain.vertices + 1] ∧
    (gm9.subdivide_domain (Letter.pos 0)).domain.pos =
      gm9.domain.pos ++ [maxList gm9.domain.pos + 1] ∧
    (gm9.subdivide_domain (Letter.pos 0)).domain.init 0 = gm9.domain.init 0 ∧
    (gm9.subdivide_domain (Letter.pos 0)).domain.term 0 =
      maxList gm9.domain.vertices + 1 ∧
    (gm9.subdivide_domain (Letter.pos 0)).domain.init (maxList gm9.domain.pos + 1) =
      maxList gm9.domain.vertices + 1 ∧
    (gm9.subdivide_domain (Letter.pos 0)).domain.term (maxList gm9.domain.pos + 1) =
      gm9.domain.term 0 ∧
    (gm9.subdivide_domain (Letter.pos 0)).edge_map (Letter.pos 0) =
      some [Letter.pos 10] ∧
    (gm9.subdivide_domain (Letter.pos 0)).edge_map
      (Letter.pos (maxList gm9.domain.pos + 1)) = some [Letter.pos 11] ∧
    (gm9.subdivide_domain (Letter.pos 0)).applyPath
      [Letter.pos 0, Letter.pos (maxList gm9.domain.pos + 1)] =
      [Letter.pos 10, Letter.pos 11]) :=
  ⟨by decide, by decide, EMInv_setEdgeMapFn _, rfl,
    C9_subdivision gm9 0 (Letter.pos 10) (Letter.pos 11) (by decide) (by decide)
      (EMInv_setEdgeMapFn _) rfl⟩

end TrainTrack
